import Mathlib

set_option autoImplicit false
set_option maxHeartbeats 1000000

/- Verification development for the facebook-scraper repository.

   The definitions below are a shallow embedding of the pure control logic
   of `src/ads_and_suggestions_scraper.py` (shared, near verbatim, with
   `src/suggestions_scraper_api.py`):

   * the month-strip card counter `_count_cards_in_prefix`,
   * the incremental extraction loop `extract_ads`,
   * the URL filter compiler `_apply_filters_to_url`,
   * the persistence tail of `main` (`save_data_immediately`,
     `save_checkpoint`) and `load_checkpoint`.

   The browser DOM is abstracted: a month strip is the list of booleans
   telling which 1-based card positions currently render, and one probe
   round of the extraction loop is the list of per-strip card counts the
   DOM exposes at that instant. -/

namespace FbScraper

/-- One parser invocation is identified by the (group, position) pair it was
called on: group = index of the month strip inside the prefix list returned
by `_discover_month_prefixes`, position = the 1-based card index `idx` inside
that strip.  The extraction loop appends one such record per invocation of
`_parse_card`, so the list of records is the exact invocation history. -/
abbrev Item := Nat × Nat

/-- `MAX_DEAD = 2` from `extract_ads`: stop after this many idle scrolls. -/
def MAX_DEAD : Nat := 2

/-- `GAP_LIMIT  = 5`: stop counting after 5 empty slots. -/
def GAP_LIMIT : Nat := 5

/-- The guard `if limit and len(ads) >= limit` of `extract_ads`.
`none` models Python `None`; `some 0` models `limit = 0`, which is falsy in
Python, so the whole guard is skipped for it. -/
def limitHit : Option Nat → Nat → Bool
  | none, _ => false
  | some l, len => (l != 0) && decide (l ≤ len)

/-- The card-counting loop of `_count_cards_in_prefix`, recursing over the
tail of the strip still to be probed (probing position `idx` of the DOM is
reading the head of the remaining presence list; every position past the end
of the strip is absent, so once the list is exhausted `total` can no longer
grow and the loop runs out its `misses < gap` budget returning `total`). -/
def countAux (gap : Nat) : List Bool → Nat → Nat → Nat
  | [], total, _ => total
  | b :: rest, total, misses =>
    if gap ≤ misses then total
    else if b then countAux gap rest (total + 1) 0
    else countAux gap rest total (misses + 1)

/-- `_count_cards_in_prefix(prefix, sb, gap)`: count cards in one strip,
tolerant of ≤ gap missing indices.  `strip` lists which positions render. -/
def countCardsInPrefix (strip : List Bool) (gap : Nat := GAP_LIMIT) : Nat :=
  countAux gap strip 0 0

/-- The inner `for idx in range(already + 1, n_cards + 1)` of `extract_ads`:
parse the given positions of group `gi` in order, stopping (and reporting the
hit with `true`) as soon as the limit guard fires.  Parsing a card appends
the (group, position) record to `ads`. -/
def parseRange (gi : Nat) (limit : Option Nat) : List Nat → List Item → List Item × Bool
  | [], ads => (ads, false)
  | idx :: rest, ads =>
    if limitHit limit ads.length then (ads, true)
    else parseRange gi limit rest (ads ++ [(gi, idx)])

/-- The `for prefix in prefixes` body of a growth round of `extract_ads`:
for each strip, `already = max(0, seen_cards - cumulative)` (truncated `Nat`
subtraction is exactly the `max(0, ...)`), positions `already+1 .. n_cards`
are parsed, and `cumulative += n_cards` runs across strips. -/
def parseRoundGo (limit : Option Nat) : List Nat → Nat → Nat → Nat → List Item → List Item × Bool
  | [], _, _, _, ads => (ads, false)
  | n :: rest, gi, cum, seen, ads =>
    let already := seen - cum
    match parseRange gi limit (List.range' (already + 1) (n - already)) ads with
    | (ads1, true) => (ads1, true)
    | (ads1, false) => parseRoundGo limit rest (gi + 1) (cum + n) seen ads1

/-- One growth round of `extract_ads`, over the probe result `cs` (the list
of per-strip card counts), starting from `seen` already-parsed cards. -/
def parseRound (limit : Option Nat) (cs : List Nat) (seen : Nat) (ads : List Item) :
    List Item × Bool :=
  parseRoundGo limit cs 0 0 seen ads

/-- The `while True` loop of `extract_ads`, driven by the script of probe
results (round `t` of the loop sees the per-strip counts `script[t]`).
Returns the parsed records together with the number of probe rounds the loop
actually executed before returning.  An exhausted script ends the run (the
modelled source has nothing further to reveal).

Source, per round: `total_now = sum(_count_cards_in_prefix(p) for p in
prefixes)`; if `total_now > seen_cards` parse the per-strip tails, set
`seen_cards = total_now`, `dead_scrolls = 0`; else `dead_scrolls += 1` and
return once `dead_scrolls >= MAX_DEAD`.  A limit hit returns mid-round. -/
def extractRounds (limit : Option Nat) : List (List Nat) → Nat → Nat → List Item → List Item × Nat
  | [], _, _, ads => (ads, 0)
  | cs :: rest, seen, dead, ads =>
    if seen < cs.sum then
      match parseRound limit cs seen ads with
      | (ads1, true) => (ads1, 1)
      | (ads1, false) =>
        let r := extractRounds limit rest cs.sum 0 ads1
        (r.1, r.2 + 1)
    else if MAX_DEAD ≤ dead + 1 then (ads, 1)
    else
      let r := extractRounds limit rest seen (dead + 1) ads
      (r.1, r.2 + 1)

/-- `extract_ads(sb, limit)`: run the incremental extraction loop from the
initial state `seen_cards = 0`, `dead_scrolls = 0`, `ads = []`. -/
def extract_ads (limit : Option Nat) (script : List (List Nat)) : List Item :=
  (extractRounds limit script 0 0 []).1

/-- Number of probe rounds `extract_ads` executes on the given script. -/
def extractRoundCount (limit : Option Nat) (script : List (List Nat)) : Nat :=
  (extractRounds limit script 0 0 []).2

/-- The flattened identity of every card a probe result `cs` exposes, in
on-page order: group `gi` contributes positions `1 .. cs[gi]`. -/
def flattenCounts : Nat → List Nat → List Item
  | _, [] => []
  | gi, n :: rest => (List.range' 1 n).map (fun p => (gi, p)) ++ flattenCounts (gi + 1) rest

/-- Round `cs'` extends round `cs` at the tail: the cards of `cs` are still
exactly the leading cards of `cs'` (new cards only render after all old
ones, which is how the month-strip DOM grows: new cards join the last strip
or new strips are appended after it). -/
def FlatExt (cs cs' : List Nat) : Prop :=
  (flattenCounts 0 cs').take (flattenCounts 0 cs).length = flattenCounts 0 cs

instance : DecidableEq Item := inferInstance

instance (cs cs' : List Nat) : Decidable (FlatExt cs cs') := by
  unfold FlatExt; infer_instance

/-! Basic lemmas about the extraction-loop embedding. -/

theorem drop_range' (k s n : Nat) : (List.range' s n).drop k = List.range' (s + k) (n - k) := by
  induction k generalizing s n with
  | zero => simp
  | succ k ih =>
    cases n with
    | zero => simp
    | succ n =>
      rw [List.range'_succ, List.drop_succ_cons, ih, Nat.succ_sub_succ]
      congr 1
      omega

theorem parseRange_none (gi : Nat) (ps : List Nat) (ads : List Item) :
    parseRange gi none ps ads = (ads ++ ps.map (fun p => (gi, p)), false) := by
  induction ps generalizing ads with
  | nil => simp [parseRange]
  | cons p rest ih => simp [parseRange, limitHit, ih]

theorem flattenCounts_length (gi : Nat) (cs : List Nat) :
    (flattenCounts gi cs).length = cs.sum := by
  induction cs generalizing gi with
  | nil => rfl
  | cons n rest ih => simp [flattenCounts, ih]

theorem flattenCounts_fst_ge (gi : Nat) (cs : List Nat) :
    ∀ x ∈ flattenCounts gi cs, gi ≤ x.1 := by
  induction cs generalizing gi with
  | nil => intro x hx; simp [flattenCounts] at hx
  | cons n rest ih =>
    intro x hx
    simp only [flattenCounts, List.mem_append, List.mem_map] at hx
    rcases hx with ⟨p, _, rfl⟩ | hx
    · exact Nat.le_refl gi
    · exact Nat.le_of_succ_le (ih (gi + 1) x hx)

theorem flattenCounts_nodup (gi : Nat) (cs : List Nat) : (flattenCounts gi cs).Nodup := by
  induction cs generalizing gi with
  | nil => exact List.nodup_nil
  | cons n rest ih =>
    refine List.Nodup.append ?_ (ih (gi + 1)) ?_
    · exact (List.nodup_range' 1 n).map (fun a b h => (Prod.mk.injEq gi a gi b ▸ h).2)
    · intro x hx hx2
      rcases List.mem_map.mp hx with ⟨p, _, rfl⟩
      have := flattenCounts_fst_ge (gi + 1) rest _ hx2
      omega

theorem parseRoundGo_none (cs : List Nat) :
    ∀ (gi cum seen : Nat) (ads : List Item),
      parseRoundGo none cs gi cum seen ads =
        (ads ++ (flattenCounts gi cs).drop (seen - cum), false) := by
  induction cs with
  | nil => intro gi cum seen ads; simp [parseRoundGo, flattenCounts]
  | cons n rest ih =>
    intro gi cum seen ads
    simp only [parseRoundGo, parseRange_none, flattenCounts]
    rw [ih]
    rw [List.drop_append_eq_append_drop, ← List.map_drop, drop_range']
    have h1 : seen - (cum + n) = seen - cum - n := by omega
    have h2 : ((List.range' 1 n).map (fun p => (gi, p))).length = n := by simp
    have h3 : 1 + (seen - cum) = seen - cum + 1 := Nat.add_comm _ _
    rw [h1, h2, h3, List.append_assoc]

theorem extractRounds_none_nodup (script : List (List Nat)) :
    ∀ (seen dead : Nat) (ads : List Item),
      List.Pairwise FlatExt script →
      (∀ cs ∈ script, (flattenCounts 0 cs).take seen = ads) →
      ads.Nodup →
      ((extractRounds none script seen dead ads).1).Nodup := by
  induction script with
  | nil => intro seen dead ads _ _ h; simpa [extractRounds] using h
  | cons cs rest ih =>
    intro seen dead ads hpw hpre hnd
    rw [List.pairwise_cons] at hpw
    by_cases hgrow : seen < cs.sum
    · have hads : (flattenCounts 0 cs).take seen = ads := hpre cs (List.mem_cons_self cs rest)
      have hround : parseRound none cs seen ads = (flattenCounts 0 cs, false) := by
        unfold parseRound
        rw [parseRoundGo_none, Nat.sub_zero, ← hads, List.take_append_drop]
      simp only [extractRounds, if_pos hgrow, hround]
      exact ih cs.sum 0 (flattenCounts 0 cs) hpw.2
        (fun cs' h' => by
          have hext := hpw.1 cs' h'
          unfold FlatExt at hext
          rwa [flattenCounts_length] at hext)
        (flattenCounts_nodup 0 cs)
    · by_cases hdead : MAX_DEAD ≤ dead + 1
      · simpa [extractRounds, hgrow, hdead] using hnd
      · simp only [extractRounds, if_neg hgrow, if_pos, if_neg hdead]
        exact ih seen (dead + 1) ads hpw.2
          (fun cs' h' => hpre cs' (List.mem_cons_of_mem cs h')) hnd

/-- Per-group growth as claim C1 quantifies it: every group of the earlier
round is still there with a count that has not shrunk (new groups may have
appeared after them). -/
def GroupGrow (cs cs' : List Nat) : Prop :=
  cs.length ≤ cs'.length ∧ ∀ i < cs.length, cs.getD i 0 ≤ cs'.getD i 0

instance (cs cs' : List Nat) : Decidable (GroupGrow cs cs') := by
  unfold GroupGrow; infer_instance

/-- Counterexample to C1 as stated: per-group growth alone does not prevent
re-parsing.  Between the rounds `[3, 4]` and `[5, 4]` every group's count
grows weakly (group 0: 3 → 5, group 1: 4 → 4), yet the running-offset
attribution makes `already = 7` swallow all of group 0's range and then
re-parses positions 3 and 4 of group 1 — the parser is invoked twice on
(1, 3) and (1, 4), and the two new cards (0, 4), (0, 5) are never parsed
(exactly what the Python does: `already = max(0, 7-0) = 7` empties strip 0's
range and strip 1 gets `already = max(0, 7-5) = 2`). -/
theorem extract_ads_reparse_counterexample :
    GroupGrow [3, 4] [5, 4]
    ∧ extract_ads none [[3, 4], [5, 4]]
        = [(0, 1), (0, 2), (0, 3), (1, 1), (1, 2), (1, 3), (1, 4), (1, 3), (1, 4)]
    ∧ ¬ (extract_ads none [[3, 4], [5, 4]]).Nodup := by
  decide

/-- The growth sequence of the delta-extraction test: per-strip counts per
round, totals 0, 3, 3, 7 (the second growth adds a new strip of 4 cards
after the first strip of 3). -/
def demoScript : List (List Nat) := [[], [3], [3], [3, 4]]

/-- C1 (amended).  The incremental extraction loop hands back exactly the
delta in each round: on the 0 → 3 → 3 → 7 growth sequence it parses 3 then
0 then 4 cards, attributing positions across strips through the running
offset; and the no-re-parse invariant holds whenever successive probe
rounds only extend the flattened card sequence at its tail — new cards
render after all previously counted ones, the growth mode the running
offset is built for — rather than for arbitrary per-group growth: when an
earlier group grows, positions of later groups are re-parsed and the new
earlier-group cards are skipped. -/
theorem extract_ads_delta_only_no_reparse :
    (extract_ads none (demoScript.take 2) = [(0, 1), (0, 2), (0, 3)]
      ∧ extract_ads none (demoScript.take 3) = [(0, 1), (0, 2), (0, 3)]
      ∧ extract_ads none demoScript
          = [(0, 1), (0, 2), (0, 3), (1, 1), (1, 2), (1, 3), (1, 4)])
    ∧ ∀ script : List (List Nat), List.Pairwise FlatExt script →
        (extract_ads none script).Nodup := by
  constructor
  · exact ⟨by decide, by decide, by decide⟩
  · intro script hpw
    exact extractRounds_none_nodup script 0 0 [] hpw (fun cs _ => rfl) List.nodup_nil

/-- Witness for C1: the tail-growth hypothesis holds for the demo script and
the theorem then yields a duplicate-free parse history for it. -/
theorem extract_ads_delta_only_no_reparse_witness :
    (extract_ads none demoScript).Nodup :=
  extract_ads_delta_only_no_reparse.2 demoScript (by decide)

theorem parseRange_le (gi l : Nat) (hl : 0 < l) (ps : List Nat) :
    ∀ ads : List Item, ads.length ≤ l →
      ((parseRange gi (some l) ps ads).1).length ≤ l := by
  induction ps with
  | nil => intro ads h; simpa [parseRange] using h
  | cons p rest ih =>
    intro ads h
    by_cases hh : limitHit (some l) ads.length = true
    · simpa [parseRange, hh] using h
    · have hlt : ads.length < l := by
        simp only [limitHit, Bool.and_eq_true, bne_iff_ne, ne_eq, decide_eq_true_eq] at hh
        omega
      simp only [parseRange, hh, if_neg, Bool.false_eq_true, ↓reduceIte]
      apply ih
      simp
      omega

theorem parseRoundGo_le (l : Nat) (hl : 0 < l) (cs : List Nat) :
    ∀ (gi cum seen : Nat) (ads : List Item), ads.length ≤ l →
      ((parseRoundGo (some l) cs gi cum seen ads).1).length ≤ l := by
  induction cs with
  | nil => intro gi cum seen ads h; simpa [parseRoundGo] using h
  | cons n rest ih =>
    intro gi cum seen ads h
    have h1 := parseRange_le gi l hl (List.range' (seen - cum + 1) (n - (seen - cum))) ads h
    simp only [parseRoundGo]
    rcases hpr : parseRange gi (some l) (List.range' (seen - cum + 1) (n - (seen - cum))) ads
      with ⟨ads1, b⟩
    rw [hpr] at h1
    cases b
    · simpa using ih (gi + 1) (cum + n) seen ads1 h1
    · simpa using h1

theorem extractRounds_le (l : Nat) (hl : 0 < l) (script : List (List Nat)) :
    ∀ (seen dead : Nat) (ads : List Item), ads.length ≤ l →
      ((extractRounds (some l) script seen dead ads).1).length ≤ l := by
  induction script with
  | nil => intro seen dead ads h; simpa [extractRounds] using h
  | cons cs rest ih =>
    intro seen dead ads h
    simp only [extractRounds]
    by_cases hg : seen < cs.sum
    · simp only [if_pos hg]
      have h1 := parseRoundGo_le l hl cs 0 0 seen ads h
      rcases hpr : parseRound (some l) cs seen ads with ⟨ads1, b⟩
      unfold parseRound at hpr
      rw [hpr] at h1
      cases b
      · simpa using ih cs.sum 0 ads1 h1
      · simpa using h1
    · simp only [if_neg hg]
      by_cases hdead : MAX_DEAD ≤ dead + 1
      · simpa [hdead] using h
      · simpa [hdead] using ih seen (dead + 1) ads h

/-- C6.  Limit enforcement: with `limit = 5` and 9 cards available the loop
returns exactly the first 5 cards and stops mid-round (it never probes the
remaining rounds), and for every positive limit and every probe script the
loop never returns more than `limit` items. -/
theorem extract_ads_limit_enforcement :
    (extract_ads (some 5) [[9]] = [(0, 1), (0, 2), (0, 3), (0, 4), (0, 5)]
      ∧ extractRoundCount (some 5) [[9], [9], [9]] = 1)
    ∧ ∀ (l : Nat) (script : List (List Nat)), 0 < l →
        (extract_ads (some l) script).length ≤ l := by
  refine ⟨⟨by decide, by decide⟩, ?_⟩
  intro l script hl
  exact extractRounds_le l hl script 0 0 [] (by simp)

/-- Witness for C6 at `limit = 5` on a script exposing 9 then 18 cards. -/
theorem extract_ads_limit_enforcement_witness :
    (extract_ads (some 5) [[9], [9, 9]]).length ≤ 5 :=
  extract_ads_limit_enforcement.2 5 [[9], [9, 9]] (by decide)

/-- C7.  Idle termination: with `MAX_DEAD = 2`, two consecutive probe rounds
without growth return from the loop after exactly those two rounds — the
result does not depend on the rest of the script, so a third idle round is
never attempted — while a single idle round merely continues the loop with
`dead_scrolls = 1`, and a growth round (limit disabled) always continues the
loop with `dead_scrolls` reset to 0; hence idle exhaustion and the limit are
the only ways the loop stops on an unbounded source. -/
theorem extract_ads_idle_termination :
    (∀ (lim : Option Nat) (c1 c2 : List Nat) (rest : List (List Nat))
        (seen : Nat) (ads : List Item),
        c1.sum ≤ seen → c2.sum ≤ seen →
        extractRounds lim (c1 :: c2 :: rest) seen 0 ads = (ads, 2))
    ∧ (∀ (lim : Option Nat) (c1 : List Nat) (rest : List (List Nat))
        (seen : Nat) (ads : List Item),
        c1.sum ≤ seen →
        extractRounds lim (c1 :: rest) seen 0 ads
          = ((extractRounds lim rest seen 1 ads).1,
             (extractRounds lim rest seen 1 ads).2 + 1))
    ∧ (∀ (c : List Nat) (rest : List (List Nat)) (seen dead : Nat) (ads : List Item),
        seen < c.sum →
        extractRounds none (c :: rest) seen dead ads
          = ((extractRounds none rest c.sum 0
                (ads ++ (flattenCounts 0 c).drop seen)).1,
             (extractRounds none rest c.sum 0
                (ads ++ (flattenCounts 0 c).drop seen)).2 + 1))
    ∧ extractRoundCount none [[3], [3], [3], [5]] = 3 := by
  refine ⟨?_, ?_, ?_, by decide⟩
  · intro lim c1 c2 rest seen ads h1 h2
    have hg1 : ¬ seen < c1.sum := by omega
    have hg2 : ¬ seen < c2.sum := by omega
    simp [extractRounds, hg1, hg2, MAX_DEAD]
  · intro lim c1 rest seen ads h1
    have hg1 : ¬ seen < c1.sum := by omega
    simp [extractRounds, hg1, MAX_DEAD]
  · intro c rest seen dead ads hg
    have hround : parseRound none c seen ads
        = (ads ++ (flattenCounts 0 c).drop seen, false) := by
      unfold parseRound
      rw [parseRoundGo_none, Nat.sub_zero]
    simp [extractRounds, hg, hround]

/-- Witness for C7: from 3 already-seen cards, two stagnant probe rounds
end the run with the 3 cards and exactly 2 further rounds, whatever comes
after. -/
theorem extract_ads_idle_termination_witness :
    extractRounds none [[3], [3], [5, 5]] 3 0 [(0, 1), (0, 2), (0, 3)]
      = ([(0, 1), (0, 2), (0, 3)], 2) :=
  extract_ads_idle_termination.1 none [3] [3] [[5, 5]] 3
    [(0, 1), (0, 2), (0, 3)] (by decide) (by decide)

theorem parseRange_zero (gi : Nat) (ps : List Nat) :
    ∀ ads : List Item, parseRange gi (some 0) ps ads = parseRange gi none ps ads := by
  induction ps with
  | nil => intro ads; rfl
  | cons p rest ih => intro ads; simp [parseRange, limitHit, ih]

theorem parseRoundGo_zero (cs : List Nat) :
    ∀ (gi cum seen : Nat) (ads : List Item),
      parseRoundGo (some 0) cs gi cum seen ads = parseRoundGo none cs gi cum seen ads := by
  induction cs with
  | nil => intro gi cum seen ads; rfl
  | cons n rest ih =>
    intro gi cum seen ads
    simp only [parseRoundGo, parseRange_zero]
    rcases parseRange gi none (List.range' (seen - cum + 1) (n - (seen - cum))) ads
      with ⟨ads1, b⟩
    cases b
    · simpa using ih (gi + 1) (cum + n) seen ads1
    · rfl

theorem extractRounds_zero (script : List (List Nat)) :
    ∀ (seen dead : Nat) (ads : List Item),
      extractRounds (some 0) script seen dead ads = extractRounds none script seen dead ads := by
  induction script with
  | nil => intro seen dead ads; rfl
  | cons cs rest ih =>
    intro seen dead ads
    simp only [extractRounds]
    by_cases hg : seen < cs.sum
    · simp only [if_pos hg]
      have hpr : parseRound (some 0) cs seen ads = parseRound none cs seen ads := by
        unfold parseRound; exact parseRoundGo_zero cs 0 0 seen ads
      rw [hpr]
      rcases parseRound none cs seen ads with ⟨ads1, b⟩
      cases b
      · simp [ih]
      · rfl
    · simp only [if_neg hg]
      by_cases hdead : MAX_DEAD ≤ dead + 1
      · simp [hdead]
      · simp [hdead, ih]

/-- C10.  A `limit` of 0 (or `None`) disables limiting entirely instead of
returning zero items: the guard `if limit and len(ads) >= limit` is skipped
for both, so the run with `limit = 0` is identical to the unlimited run, and
on a source exposing 9 cards it returns all 9 and then stops by idle
termination, not by the limit. -/
theorem extract_ads_limit_zero_disables :
    (∀ (script : List (List Nat)) (seen dead : Nat) (ads : List Item),
        extractRounds (some 0) script seen dead ads = extractRounds none script seen dead ads)
    ∧ (extract_ads (some 0) [[9], [9], [9]]).length = 9
    ∧ extractRoundCount (some 0) [[9], [9], [9]] = 3 := by
  refine ⟨?_, by decide, by decide⟩
  intro script seen dead ads
  exact extractRounds_zero script seen dead ads

/-! The gap-tolerance probe (claim C2). -/

/-- The simulated strip of the gap-tolerance test: positions 1-3 and 5-8
render, position 4 is missing. -/
def gapDemoStrip : List Bool := [true, true, true, false, true, true, true, true]

/-- Counterexample to C2 as stated: with `gapTolerance = 5` the probe
reports 7 on the gap-demo strip, not the claimed 8 — `total` in
`_count_cards_in_prefix` is incremented only for positions whose card is
actually found, and only 7 positions of the strip are present. -/
theorem countCards_gap_counterexample :
    countCardsInPrefix gapDemoStrip 5 = 7 ∧ countCardsInPrefix gapDemoStrip 5 ≠ 8 := by
  decide

/-- C2 (amended).  The probe tolerates the single missing position: with
`gapTolerance = 5` it counts all 7 present positions of the strip instead of
concluding the group ended at the gap, while a tolerance of 1 stops at the
gap and reports only 3. -/
theorem countCards_gap_tolerance :
    countCardsInPrefix gapDemoStrip 5 = 7 ∧ countCardsInPrefix gapDemoStrip 1 = 3 := by
  decide

/-! Persistence and checkpoint-marking (claims C8, C9): the task tail of
`main`, `save_data_immediately`, `save_checkpoint`, `load_checkpoint`. -/

/-- A (country, keyword, advertiser) triple, the task identity that the
orchestrator loop checkpoints. -/
abbrev TaskKey := String × String × Option String

/-- A `pair_object` output record; opaque to the persistence layer. -/
abbrev OutputRec := String

/-- The observable file writes of one task of the `main` loop, in program
order. -/
inductive FileEv
  | writePrimary (recs : List OutputRec)
  | writeBackup (recs : List OutputRec)
  | writeCheckpoint (ks : List TaskKey)
deriving DecidableEq

/-- `save_data_immediately(pair_object, mode)`: read the existing output
list (a non-list or unreadable file degrades to `[]`, which is folded into
`existing` here), append the record and rewrite the primary file; if writing
the primary file raises, write `[pair_object]` alone to the backup file; if
the backup write also raises, re-raise.  `pOk` / `bOk` say whether the two
file writes succeed, and `none` models the exception reaching the caller. -/
def save_data_immediately (pOk bOk : Bool) (existing : List OutputRec) (r : OutputRec) :
    Option (List FileEv) :=
  if pOk then some [FileEv.writePrimary (existing ++ [r])]
  else if bOk then some [FileEv.writeBackup [r]]
  else none

/-- The persistence tail of one task in `main`:
`save_data_immediately(pair_object, MODE)`, then
`done_pairs.add((country, keyword, advertiser))`, then
`save_checkpoint(done_pairs)`.  When `save_data_immediately` raises, the
exception propagates and the add / checkpoint-save statements never run. -/
def taskPersistTail (pOk bOk : Bool) (existing : List OutputRec) (done : List TaskKey)
    (k : TaskKey) (r : OutputRec) : List FileEv :=
  match save_data_immediately pOk bOk existing r with
  | none => []
  | some evs => evs ++ [FileEv.writeCheckpoint (done ++ [k])]

/-- C8.  Within one task, persistence strictly precedes checkpoint-marking:
every checkpoint write in the task's event trace contains the task key and
is preceded by a successful write of the task's record to the primary or the
backup file; and when `save_data_immediately` raises, no event at all (in
particular no checkpoint write) happens — the task is never marked done. -/
theorem persist_before_checkpoint (pOk bOk : Bool) (existing : List OutputRec)
    (done : List TaskKey) (k : TaskKey) (r : OutputRec) :
    (∀ i ks, (taskPersistTail pOk bOk existing done k r).get? i
        = some (FileEv.writeCheckpoint ks) →
      k ∈ ks ∧ ∃ j, j < i ∧
        ((taskPersistTail pOk bOk existing done k r).get? j
            = some (FileEv.writePrimary (existing ++ [r]))
          ∨ (taskPersistTail pOk bOk existing done k r).get? j
            = some (FileEv.writeBackup [r])))
    ∧ (save_data_immediately pOk bOk existing r = none →
        taskPersistTail pOk bOk existing done k r = []) := by
  cases pOk with
  | true =>
    have htail : taskPersistTail true bOk existing done k r
        = [FileEv.writePrimary (existing ++ [r]), FileEv.writeCheckpoint (done ++ [k])] := by
      simp [taskPersistTail, save_data_immediately]
    refine ⟨?_, by simp [save_data_immediately]⟩
    intro i ks h
    rw [htail] at h
    match i with
    | 0 => simp at h
    | 1 =>
      simp only [List.get?_cons_succ, List.get?_cons_zero, Option.some.injEq,
        FileEv.writeCheckpoint.injEq] at h
      subst h
      exact ⟨List.mem_append_right done (List.mem_singleton_self k),
        0, Nat.zero_lt_one, Or.inl (by rw [htail]; rfl)⟩
    | (n + 2) => simp at h
  | false =>
    cases bOk with
    | true =>
      have htail : taskPersistTail false true existing done k r
          = [FileEv.writeBackup [r], FileEv.writeCheckpoint (done ++ [k])] := by
        simp [taskPersistTail, save_data_immediately]
      refine ⟨?_, by simp [save_data_immediately]⟩
      intro i ks h
      rw [htail] at h
      match i with
      | 0 => simp at h
      | 1 =>
        simp only [List.get?_cons_succ, List.get?_cons_zero, Option.some.injEq,
          FileEv.writeCheckpoint.injEq] at h
        subst h
        exact ⟨List.mem_append_right done (List.mem_singleton_self k),
          0, Nat.zero_lt_one, Or.inr (by rw [htail]; rfl)⟩
      | (n + 2) => simp at h
    | false =>
      have htail : taskPersistTail false false existing done k r = [] := by
        simp [taskPersistTail, save_data_immediately]
      refine ⟨?_, fun _ => htail⟩
      intro i ks h
      rw [htail] at h
      simp at h

/-- Witness for C8: with both writes healthy, the checkpoint write sits at
trace index 1, carries the task key, and the primary write precedes it. -/
theorem persist_before_checkpoint_witness :
    ("TH", "props", none) ∈ ([] ++ [(("TH", "props", none) : TaskKey)])
    ∧ ∃ j, j < 1 ∧
        ((taskPersistTail true true [] [] ("TH", "props", none) "rec0").get? j
            = some (FileEv.writePrimary ([] ++ ["rec0"]))
          ∨ (taskPersistTail true true [] [] ("TH", "props", none) "rec0").get? j
            = some (FileEv.writeBackup ["rec0"])) :=
  (persist_before_checkpoint true true [] [] ("TH", "props", none) "rec0").1 1
    ([] ++ [("TH", "props", none)]) rfl

/-- A parsed JSON value, the result of a successful `json.loads`. -/
inductive JsonVal
  | null
  | bool (b : Bool)
  | num (n : Int)
  | str (s : String)
  | arr (elems : List JsonVal)
  | obj (fields : List (String × JsonVal))

/-- Python iteration as `tuple(p)` and `for p in data` use it: lists yield
their elements, strings their one-character substrings, dicts their keys;
any other value raises `TypeError`. -/
def pyIter : JsonVal → Except Unit (List JsonVal)
  | .arr xs => .ok xs
  | .str s => .ok (s.toList.map (fun c => .str (String.mk [c])))
  | .obj kvs => .ok (kvs.map (fun kv => .str kv.1))
  | _ => .error ()

/-- The checkpoint file as `load_checkpoint` sees it: `none` — the file is
missing; `some (.error ())` — reading or `json.loads` raised (after all the
fallback encodings were tried); `some (.ok v)` — the file parsed to `v`. -/
abbrev CheckpointFile := Option (Except Unit JsonVal)

/-- `load_checkpoint()` (same structure in `facebook_advertiser_ads.py`):
return the empty set when `CONTINUATION` is off or the file is missing;
otherwise parse the file and build `{tuple(p) for p in data}`, catching any
exception raised while reading, parsing or building the set and returning
the empty set for it.  The Python set is modelled as the list of tuples in
iteration order (set deduplication is irrelevant to emptiness, which is all
claim C9 speaks about). -/
def load_checkpoint (continuation : Bool) (file : CheckpointFile) : List (List JsonVal) :=
  if continuation then
    match file with
    | none => []
    | some (.error _) => []
    | some (.ok data) =>
      match pyIter data with
      | .error _ => []
      | .ok ps =>
        match ps.mapM pyIter with
        | .error _ => []
        | .ok ts => ts
  else []

theorem load_checkpoint_parsed (v : JsonVal) :
    load_checkpoint true (some (.ok v))
      = match pyIter v with
        | .error _ => []
        | .ok ps =>
          match ps.mapM pyIter with
          | .error _ => []
          | .ok ts => ts := rfl

/-- Counterexample to C9 as stated: a checkpoint file holding the valid but
wrong-schema JSON document `"ab"` (a string) does not degrade to the empty
set — iterating the string succeeds, so `load_checkpoint` returns the junk
set of the two one-character tuples. -/
theorem load_checkpoint_wrong_schema_counterexample :
    (load_checkpoint true (some (.ok (JsonVal.str "ab")))).length = 2 ∧
    load_checkpoint true (some (.ok (JsonVal.str "ab"))) ≠ [] := by
  refine ⟨rfl, fun h => ?_⟩
  have h2 : (2 : Nat) = 0 := by
    calc (2 : Nat) = (load_checkpoint true (some (.ok (JsonVal.str "ab")))).length := rfl
    _ = ([] : List (List JsonVal)).length := by rw [h]
    _ = 0 := rfl
  exact absurd h2 (by decide)

/-- C9 (amended).  `load_checkpoint` never raises, and it returns the empty
set when the file is missing, when reading or parsing it fails, and when the
parsed value, or one of its elements, cannot be iterated (the `TypeError` is
caught); only a wrong-schema value that happens to be an iterable of
iterables escapes the degradation and yields a junk set instead. -/
theorem load_checkpoint_degrades_to_empty (c : Bool) :
    load_checkpoint c none = []
    ∧ (∀ e, load_checkpoint c (some (.error e)) = [])
    ∧ (∀ v, (pyIter v).isOk = false → load_checkpoint c (some (.ok v)) = [])
    ∧ (∀ v ps, pyIter v = .ok ps → (ps.mapM pyIter).isOk = false →
        load_checkpoint c (some (.ok v)) = []) := by
  refine ⟨?_, ?_, ?_, ?_⟩
  · cases c <;> rfl
  · intro e; cases c <;> rfl
  · intro v hv
    cases c
    · rfl
    · rw [load_checkpoint_parsed]
      cases hpi : pyIter v with
      | error e => rfl
      | ok ps => rw [hpi] at hv; simp [Except.isOk, Except.toBool] at hv
  · intro v ps hv hm
    cases c
    · rfl
    · rw [load_checkpoint_parsed, hv]
      cases hmm : ps.mapM pyIter with
      | error e =>
        show (match ps.mapM pyIter with
              | Except.error _ => ([] : List (List JsonVal))
              | Except.ok ts => ts) = []
        rw [hmm]
      | ok ts => rw [hmm] at hm; simp [Except.isOk, Except.toBool] at hm

/-- Witness for C9 (amended): a checkpoint file holding the JSON number 3
(not iterable) degrades to the empty set. -/
theorem load_checkpoint_degrades_to_empty_witness :
    load_checkpoint true (some (.ok (JsonVal.num 3))) = [] :=
  (load_checkpoint_degrades_to_empty true).2.2.1 (JsonVal.num 3) rfl

/-! The FilterSpec compiler `_apply_filters_to_url` (claims C3, C4, C5). -/

/-- A query-string key.  `_apply_filters_to_url` distinguishes keys only by
equality with fixed names and by the prefixes `content_languages[` and
`publisher_platforms[`, so keys are modelled by that classification:
`lang i` is `content_languages[i]`, `plat i` is `publisher_platforms[i]`,
`startMin` / `startMax` are `start_date[min]` / `start_date[max]`, and
`plain s` is any other key `s`. -/
inductive QKey
  | plain (s : String)
  | lang (i : Nat)
  | plat (i : Nat)
  | startMin
  | startMax
deriving DecidableEq, Repr

/-- The parsed query string: the insertion-ordered dict from key to value
list that `parse_qs(..., keep_blank_values=True)` returns. -/
abbrev QDict := List (QKey × List String)

/-- Python dict assignment `q[k] = v`: replace the value in place if the key
is present, else append the new entry at the end. -/
def dictSet : QDict → QKey → List String → QDict
  | [], k, v => [(k, v)]
  | kv :: rest, k, v => if kv.1 = k then (k, v) :: rest else kv :: dictSet rest k v

/-- One step of `parse_qs`: record one `k=v` occurrence, appending the value
to the existing list for `k` or starting a fresh entry at the end. -/
def addPair : QDict → QKey → String → QDict
  | [], k, v => [(k, [v])]
  | kv :: rest, k, v => if kv.1 = k then (k, kv.2 ++ [v]) :: rest else kv :: addPair rest k v

/-- `parse_qs(query, keep_blank_values=True)` over the decoded `k=v` pairs
of the query string, in order. -/
def parse_qs (pairs : List (QKey × String)) : QDict :=
  pairs.foldl (fun q kv => addPair q kv.1 kv.2) []

/-- `urlencode(q, doseq=True, quote_via=quote)`: flatten the dict back to
the ordered `k=v` pair sequence (percent-encoding round-trips through
`parse_qs` and is abstracted away). -/
def urlencode (q : QDict) : List (QKey × String) :=
  (q.map (fun kv => kv.2.map (fun v => (kv.1, v)))).flatten

/-- First value list stored under a key, if any. -/
def lookupK : QDict → QKey → Option (List String)
  | [], _ => none
  | kv :: rest, k => if kv.1 = k then some kv.2 else lookupK rest k

/-- The module-level filter settings read by `_apply_filters_to_url`. -/
structure FilterConfig where
  STATUS : String
  AD_CATEGORY : Option String
  LANGUAGES : List String
  PLATFORMS : List String
  MEDIA_TYPE : String
  START_DATE : Option String
  END_DATE : Option String
deriving DecidableEq, Repr

/-- ASCII lower-casing of one character, as `str.lower()` acts on the ASCII
names the internal maps hold. -/
def asciiLower (c : Char) : Char :=
  if 65 ≤ c.toNat ∧ c.toNat ≤ 90 then Char.ofNat (c.toNat + 32) else c

/-- The `\s` class: ASCII whitespace. -/
def isBlankChar (c : Char) : Bool :=
  c = ' ' || c = '\t' || c = '\n' || c = '\x0d' || c = '\x0c' || c = '\x0b'

/-- Split a character list into its maximal blank-free words. -/
def blankWords : List Char → List Char → List (List Char)
  | [], acc => if acc = [] then [] else [acc.reverse]
  | c :: rest, acc =>
    if isBlankChar c then
      if acc = [] then blankWords rest [] else acc.reverse :: blankWords rest []
    else blankWords rest (c :: acc)

/-- `slugify`: lower-case, strip, and collapse runs of blanks to a single
space, for map look-ups (the NFKD accent-stripping of the source is the
identity on the ASCII names in the internal maps, which is all the claims
exercise). -/
def slugify (text : String) : String :=
  String.mk (List.intercalate [' '] (blankWords (text.data.map asciiLower) []))

/-- `str.strip()` on the character level. -/
def trimChars (cs : List Char) : List Char :=
  ((cs.dropWhile isBlankChar).reverse.dropWhile isBlankChar).reverse

/-- The ISO-639-1 name-to-code table `LANG_MAP`. -/
def LANG_MAP : List (String × String) :=
  [("arabic", "ar"), ("bulgarian", "bg"), ("burmese", "my"), ("chinese", "zh"),
   ("czech", "cs"), ("dutch", "nl"), ("danish", "da"), ("vietnamese", "vi"),
   ("turkish", "tr"), ("thai", "th"), ("swedish", "sv"), ("spanish", "es"),
   ("slovak", "sk"), ("romanian", "ro"), ("portuguese", "pt"), ("polish", "pl"),
   ("norwegian", "nb"), ("malay", "ms"), ("italian", "it"), ("indonesian", "id"),
   ("hungarian", "hu"), ("greek", "el"), ("german", "de"), ("french", "fr"),
   ("english", "en"), ("russian", "ru"), ("ukrainian", "uk"), ("amharic", "am")]

/-- `lang_to_code`: a two-ASCII-letter input passes through lower-cased
(the `re.fullmatch("[a-z]{2}", ..., re.I)` branch on the stripped input);
anything else is slugified and looked up in `LANG_MAP`. -/
def lang_to_code (name_or_code : String) : Option String :=
  let t := trimChars name_or_code.data
  if (t.length == 2) && t.all Char.isAlpha then some (String.mk (t.map asciiLower))
  else LANG_MAP.lookup (slugify name_or_code)

/-- `AD_CATEGORY_MAP` (with its `None` fall-back key). -/
def AD_CATEGORY_MAP : Option String → Option String
  | none => some "all"
  | some "all" => some "all"
  | some "all_ads" => some "all"
  | some "issues" => some "issue_ads"
  | some "politics" => some "issue_ads"
  | some "issues_elections_politics" => some "issue_ads"
  | some "properties" => some "housing_ads"
  | some "employment" => some "employment_ads"
  | some "financial" => some "credit_ads"
  | some _ => none

/-- `AD_CATEGORY_MAP.get(slugify(AD_CATEGORY) if AD_CATEGORY else None, "all")`. -/
def adTypeVal (cfg : FilterConfig) : String :=
  (AD_CATEGORY_MAP (cfg.AD_CATEGORY.map slugify)).getD "all"

def PLATFORM_SET : List String :=
  ["facebook", "instagram", "audience_network", "messenger", "threads"]

def MEDIA_TYPE_SET : List String :=
  ["all", "image", "video", "meme", "image_and_meme", "none"]

/-- The closed status set of step 1 of `_apply_filters_to_url`. -/
def statusValid (cfg : FilterConfig) : Prop :=
  cfg.STATUS = "active" ∨ cfg.STATUS = "inactive" ∨ cfg.STATUS = "all"

instance (cfg : FilterConfig) : Decidable (statusValid cfg) := by
  unfold statusValid; infer_instance

def isLang : QKey → Bool
  | .lang _ => true
  | _ => false

def isPlat : QKey → Bool
  | .plat _ => true
  | _ => false

def isStart : QKey → Bool
  | .startMin => true
  | .startMax => true
  | _ => false

/-- Steps 1-2 of `_apply_filters_to_url`: write `active_status` (only when
`STATUS` lies in the closed status set, otherwise the step is skipped) and
always write `ad_type` with its resolved default. -/
def applyStatusCat (cfg : FilterConfig) (q : QDict) : QDict :=
  let q1 := if statusValid cfg then dictSet q (QKey.plain "active_status") [cfg.STATUS] else q
  dictSet q1 (QKey.plain "ad_type") [adTypeVal cfg]

/-- The `lang_to_code` resolution loop of step 3: the codes for all
languages, or the `Unknown language` error at the first name without a
code (the source raises inside the write loop; since the raise discards the
whole call, resolving first and writing after is observationally equal). -/
def langCodes : List String → Except String (List String)
  | [] => .ok []
  | item :: rest =>
    match lang_to_code item with
    | none => .error ("Unknown language: " ++ item)
    | some c => (langCodes rest).map (fun cs => c :: cs)

/-- The `for idx, item in enumerate(LANGUAGES)` write loop: insert
`content_languages[i] = code` sequentially starting at index `i`. -/
def setLangsFrom (i : Nat) : List String → QDict → QDict
  | [], q => q
  | c :: rest, q => setLangsFrom (i + 1) rest (dictSet q (QKey.lang i) [c])

/-- Step 3 after the prefix keys were cleared: re-insert the language codes
sequentially, if any languages were supplied. -/
def applyLangs (cfg : FilterConfig) (q : QDict) : Except String QDict :=
  if cfg.LANGUAGES = [] then .ok q
  else
    match langCodes cfg.LANGUAGES with
    | .error e => .error e
    | .ok codes => .ok (setLangsFrom 0 codes q)

/-- The `for idx, p in enumerate(PLATFORMS)` write loop of step 4. -/
def setPlatsFrom (i : Nat) : List String → QDict → QDict
  | [], q => q
  | p :: rest, q => setPlatsFrom (i + 1) rest (dictSet q (QKey.plat i) [p])

/-- Step 4 after the prefix keys were cleared: validate the platforms
against the closed set (`set(PLATFORMS) - PLATFORM_SET` empty) and
re-insert them sequentially, if any were supplied. -/
def applyPlats (cfg : FilterConfig) (q : QDict) : Except String QDict :=
  if cfg.PLATFORMS = [] then .ok q
  else
    if cfg.PLATFORMS.all (fun p => decide (p ∈ PLATFORM_SET)) then
      .ok (setPlatsFrom 0 cfg.PLATFORMS q)
    else .error "Unknown platform(s)"

/-- Step 6: wipe `start_date[min]` / `start_date[max]` and re-insert them
from `START_DATE` / `END_DATE` when set.  There is no comparison of the two
dates anywhere in this step. -/
def applyDates (cfg : FilterConfig) (q : QDict) : QDict :=
  let q8 := q.filter (fun kv => !isStart kv.1)
  let q9 := match cfg.START_DATE with
    | some s => dictSet q8 QKey.startMin [s]
    | none => q8
  match cfg.END_DATE with
  | some e => dictSet q9 QKey.startMax [e]
  | none => q9

/-- The dict transformation of `_apply_filters_to_url`, step by step in
source order: status and category writes; clear `content_languages[` keys,
resolve and re-insert languages; clear `publisher_platforms[` keys,
validate and re-insert platforms; validate and write `media_type`; wipe and
re-insert the date range. -/
def applyFiltersQ (cfg : FilterConfig) (q0 : QDict) : Except String QDict :=
  match applyLangs cfg ((applyStatusCat cfg q0).filter (fun kv => !isLang kv.1)) with
  | .error e => .error e
  | .ok q4 =>
    match applyPlats cfg (q4.filter (fun kv => !isPlat kv.1)) with
    | .error e => .error e
    | .ok q6 =>
      if cfg.MEDIA_TYPE ∈ MEDIA_TYPE_SET then
        .ok (applyDates cfg (dictSet q6 (QKey.plain "media_type") [cfg.MEDIA_TYPE]))
      else .error ("Unsupported MEDIA_TYPE: " ++ cfg.MEDIA_TYPE)

/-- A URL as `_apply_filters_to_url` manipulates it: `urlparse` splits it
into the query string and everything else (`pre`), and `urlunparse` puts
the untouched `pre` back around the rebuilt query. -/
structure UrlQ where
  pre : String
  query : List (QKey × String)
deriving DecidableEq, Repr

/-- `_apply_filters_to_url(base_url)`: parse the query, rewrite it from the
filter settings, re-encode it; a validation failure raises and produces no
URL at all (the input string is never mutated). -/
def _apply_filters_to_url (cfg : FilterConfig) (u : UrlQ) : Except String UrlQ :=
  (applyFiltersQ cfg (parse_qs u.query)).map (fun q => ⟨u.pre, urlencode q⟩)

deriving instance DecidableEq for Except

/-- A filter configuration requesting one language, everything else at its
defaults (the shipped defaults: STATUS active, AD_CATEGORY all, MEDIA_TYPE
all, no platforms, no dates). -/
def c3Cfg : FilterConfig := ⟨"active", some "all", ["en"], [], "all", none, none⟩

/-- A base target whose query does not yet carry a `media_type` key. -/
def c3Url0 : UrlQ := ⟨"https://www.facebook.com/ads/library/", [(QKey.plain "a", "1")]⟩

def c3Url1 : UrlQ :=
  ⟨"https://www.facebook.com/ads/library/",
   [(QKey.plain "a", "1"), (QKey.plain "active_status", "active"),
    (QKey.plain "ad_type", "all"), (QKey.lang 0, "en"),
    (QKey.plain "media_type", "all")]⟩

def c3Url2 : UrlQ :=
  ⟨"https://www.facebook.com/ads/library/",
   [(QKey.plain "a", "1"), (QKey.plain "active_status", "active"),
    (QKey.plain "ad_type", "all"), (QKey.plain "media_type", "all"),
    (QKey.lang 0, "en")]⟩

/-- Counterexample to C3 as stated: compiling twice is not the same as
compiling once.  On a base target without a `media_type` parameter the
first compilation appends `media_type` after the language keys, while the
second clears and re-appends the language keys after it, so the two
outputs differ (same parameters, different order — hence not byte-identical
either). -/
theorem apply_filters_not_idempotent_counterexample :
    _apply_filters_to_url c3Cfg c3Url0 = .ok c3Url1
    ∧ _apply_filters_to_url c3Cfg c3Url1 = .ok c3Url2
    ∧ c3Url1 ≠ c3Url2 := by decide

/-- All-defaults configuration: every optional dimension unset. -/
def c4Cfg : FilterConfig := ⟨"active", some "all", [], [], "all", none, none⟩

/-- Counterexample to C4 as stated: with `LANGUAGES` empty the existing
`content_languages[0]=fr` encoding of the base target is not left
untouched — the compiler strips the prefix keys unconditionally and
re-inserts nothing, so the output has lost the language filter. -/
theorem apply_filters_clears_unset_counterexample :
    lookupK [(QKey.lang 0, ["fr"])] (QKey.lang 0) = some ["fr"]
    ∧ applyFiltersQ c4Cfg [(QKey.lang 0, ["fr"])]
        = .ok [(QKey.plain "active_status", ["active"]), (QKey.plain "ad_type", ["all"]),
               (QKey.plain "media_type", ["all"])] := by decide

/-- Configuration whose end date precedes its start date. -/
def c5Cfg : FilterConfig :=
  ⟨"active", some "all", [], [], "all", some "2024-01-01", some "2023-01-01"⟩

/-- Counterexample to C5 as stated: `end < start` raises nothing —
`_apply_filters_to_url` never compares the two dates, so the reversed
range compiles fine and both bounds are written to the target. -/
theorem apply_filters_no_date_check_counterexample :
    "2023-01-01".data < "2024-01-01".data
    ∧ _apply_filters_to_url c5Cfg ⟨"base", []⟩
        = .ok ⟨"base",
            [(QKey.plain "active_status", "active"), (QKey.plain "ad_type", "all"),
             (QKey.plain "media_type", "all"), (QKey.startMin, "2024-01-01"),
             (QKey.startMax, "2023-01-01")]⟩ := by decide

/-! Ordered-dict lemmas for the compiler proofs. -/

theorem lookupK_eq_none_iff (q : QDict) (k : QKey) :
    lookupK q k = none ↔ k ∉ q.map Prod.fst := by
  induction q with
  | nil => simp [lookupK]
  | cons kv rest ih =>
    by_cases h : kv.1 = k
    · simp [lookupK, h]
    · simp only [lookupK, if_neg h, List.map_cons, List.mem_cons, not_or, ih]
      exact ⟨fun hn => ⟨fun hk => h hk.symm, hn⟩, fun hn => hn.2⟩

theorem lookupK_append_of_none {q : QDict} {k : QKey} (r : QDict)
    (h : lookupK q k = none) : lookupK (q ++ r) k = lookupK r k := by
  induction q with
  | nil => simp
  | cons kv rest ih =>
    by_cases hk : kv.1 = k
    · simp [lookupK, hk] at h
    · simp only [lookupK, if_neg hk] at h
      simpa [lookupK, hk] using ih h

theorem lookupK_append_of_some {q : QDict} {k : QKey} {v : List String} (r : QDict)
    (h : lookupK q k = some v) : lookupK (q ++ r) k = some v := by
  induction q with
  | nil => simp [lookupK] at h
  | cons kv rest ih =>
    by_cases hk : kv.1 = k
    · simp only [lookupK, if_pos hk] at h
      simpa [lookupK, hk] using h
    · simp only [lookupK, if_neg hk] at h
      simpa [lookupK, hk] using ih h

theorem dictSet_of_lookup_some {q : QDict} {k : QKey} {v : List String}
    (h : lookupK q k = some v) : dictSet q k v = q := by
  induction q with
  | nil => simp [lookupK] at h
  | cons kv rest ih =>
    by_cases hk : kv.1 = k
    · simp only [lookupK, if_pos hk] at h
      obtain ⟨k1, v1⟩ := kv
      simp only at hk
      subst hk
      simp only [Option.some.injEq] at h
      simp [dictSet, h]
    · simp only [lookupK, if_neg hk] at h
      simp [dictSet, hk, ih h]

theorem dictSet_of_lookup_none {q : QDict} {k : QKey} (v : List String)
    (h : lookupK q k = none) : dictSet q k v = q ++ [(k, v)] := by
  induction q with
  | nil => rfl
  | cons kv rest ih =>
    by_cases hk : kv.1 = k
    · simp [lookupK, hk] at h
    · simp only [lookupK, if_neg hk] at h
      simp [dictSet, hk, ih h]

theorem lookupK_dictSet_self (q : QDict) (k : QKey) (v : List String) :
    lookupK (dictSet q k v) k = some v := by
  induction q with
  | nil => simp [dictSet, lookupK]
  | cons kv rest ih =>
    by_cases hk : kv.1 = k
    · simp [dictSet, hk, lookupK]
    · simp [dictSet, hk, lookupK, ih]

theorem lookupK_dictSet_ne (q : QDict) {k k' : QKey} (v : List String) (h : k' ≠ k) :
    lookupK (dictSet q k v) k' = lookupK q k' := by
  have hkk : ¬ k = k' := fun he => h he.symm
  induction q with
  | nil => simp [dictSet, lookupK, hkk]
  | cons kv rest ih =>
    by_cases hk : kv.1 = k
    · have hne : ¬ kv.1 = k' := by rw [hk]; exact hkk
      simp [dictSet, hk, lookupK, hkk, hne]
    · by_cases hk' : kv.1 = k'
      · simp [dictSet, hk, lookupK, hk', h, ih]
      · simp [dictSet, hk, lookupK, hk', ih]

theorem keys_dictSet_of_some {q : QDict} {k : QKey} {vs : List String} (v : List String)
    (h : lookupK q k = some vs) : (dictSet q k v).map Prod.fst = q.map Prod.fst := by
  induction q with
  | nil => simp [lookupK] at h
  | cons kv rest ih =>
    by_cases hk : kv.1 = k
    · simp [dictSet, hk]
    · simp only [lookupK, if_neg hk] at h
      simp [dictSet, hk, ih h]

theorem lookupK_filter_true {p : QKey → Bool} {k : QKey} (q : QDict) (h : p k = true) :
    lookupK (q.filter (fun kv => p kv.1)) k = lookupK q k := by
  induction q with
  | nil => rfl
  | cons kv rest ih =>
    by_cases hp : p kv.1 = true
    · simp [List.filter_cons, hp, lookupK, ih]
    · have hk : kv.1 ≠ k := fun he => hp (he ▸ h)
      simp [List.filter_cons, hp, lookupK, hk, ih]

theorem lookupK_filter_false {p : QKey → Bool} {k : QKey} (q : QDict) (h : p k = false) :
    lookupK (q.filter (fun kv => p kv.1)) k = none := by
  induction q with
  | nil => rfl
  | cons kv rest ih =>
    by_cases hp : p kv.1 = true
    · have hk : kv.1 ≠ k := fun he => by rw [he, h] at hp; exact Bool.false_ne_true hp
      simp [List.filter_cons, hp, lookupK, hk, ih]
    · simp [List.filter_cons, hp, ih]

/-- The keys of the dict are pairwise distinct (true of every `parse_qs`
output and preserved by the compiler steps). -/
def NodupKeys (q : QDict) : Prop := (q.map Prod.fst).Nodup

/-- Every stored value list is non-empty (true of every `parse_qs` output:
each key occurrence contributes a value). -/
def ValsNE (q : QDict) : Prop := ∀ kv ∈ q, kv.2 ≠ []

theorem NodupKeys_dictSet {q : QDict} (k : QKey) (v : List String)
    (h : NodupKeys q) : NodupKeys (dictSet q k v) := by
  cases hl : lookupK q k with
  | some vs =>
    unfold NodupKeys
    rw [keys_dictSet_of_some v hl]
    exact h
  | none =>
    unfold NodupKeys
    rw [dictSet_of_lookup_none v hl]
    have hk : k ∉ q.map Prod.fst := (lookupK_eq_none_iff q k).mp hl
    simp only [List.map_append, List.map_cons, List.map_nil]
    rw [List.nodup_append]
    refine ⟨h, List.nodup_singleton k, ?_⟩
    intro x hx hx2
    rw [List.mem_singleton] at hx2
    subst hx2
    exact hk hx

theorem ValsNE_dictSet {q : QDict} {v : List String} (k : QKey)
    (hv : v ≠ []) (h : ValsNE q) : ValsNE (dictSet q k v) := by
  induction q with
  | nil =>
    intro kv hkv
    simp only [dictSet, List.mem_singleton] at hkv
    subst hkv
    exact hv
  | cons kv0 rest ih =>
    intro kv hkv
    by_cases hk : kv0.1 = k
    · simp only [dictSet, if_pos hk, List.mem_cons] at hkv
      rcases hkv with rfl | hkv
      · exact hv
      · exact h kv (List.mem_cons_of_mem kv0 hkv)
    · simp only [dictSet, if_neg hk, List.mem_cons] at hkv
      rcases hkv with rfl | hkv
      · exact h kv (List.mem_cons_self kv rest)
      · exact ih (fun kv2 h2 => h kv2 (List.mem_cons_of_mem kv0 h2)) kv hkv

theorem NodupKeys_filter (p : QKey × List String → Bool) {q : QDict}
    (h : NodupKeys q) : NodupKeys (q.filter p) :=
  ((List.filter_sublist q).map Prod.fst).nodup h

theorem ValsNE_filter (p : QKey × List String → Bool) {q : QDict}
    (h : ValsNE q) : ValsNE (q.filter p) :=
  fun kv hkv => h kv (List.mem_of_mem_filter hkv)

theorem addPair_of_lookup_none {q : QDict} {k : QKey} (v : String)
    (h : lookupK q k = none) : addPair q k v = q ++ [(k, [v])] := by
  induction q with
  | nil => rfl
  | cons kv rest ih =>
    by_cases hk : kv.1 = k
    · simp [lookupK, hk] at h
    · simp only [lookupK, if_neg hk] at h
      simp [addPair, hk, ih h]

theorem addPair_append_last {pre : QDict} {k : QKey} (vs : List String) (v : String)
    (h : lookupK pre k = none) :
    addPair (pre ++ [(k, vs)]) k v = pre ++ [(k, vs ++ [v])] := by
  induction pre with
  | nil => simp [addPair]
  | cons kv rest ih =>
    by_cases hk : kv.1 = k
    · simp [lookupK, hk] at h
    · simp only [lookupK, if_neg hk] at h
      simp [addPair, hk, ih h]

theorem keys_addPair_of_some {q : QDict} {k : QKey} {vs : List String} (v : String)
    (h : lookupK q k = some vs) : (addPair q k v).map Prod.fst = q.map Prod.fst := by
  induction q with
  | nil => simp [lookupK] at h
  | cons kv rest ih =>
    by_cases hk : kv.1 = k
    · simp [addPair, hk]
    · simp only [lookupK, if_neg hk] at h
      simp [addPair, hk, ih h]

theorem NodupKeys_addPair {q : QDict} (k : QKey) (v : String)
    (h : NodupKeys q) : NodupKeys (addPair q k v) := by
  cases hl : lookupK q k with
  | some vs =>
    unfold NodupKeys
    rw [keys_addPair_of_some v hl]
    exact h
  | none =>
    unfold NodupKeys
    rw [addPair_of_lookup_none v hl]
    have hk : k ∉ q.map Prod.fst := (lookupK_eq_none_iff q k).mp hl
    simp only [List.map_append, List.map_cons, List.map_nil]
    rw [List.nodup_append]
    refine ⟨h, List.nodup_singleton k, ?_⟩
    intro x hx hx2
    rw [List.mem_singleton] at hx2
    subst hx2
    exact hk hx

theorem ValsNE_addPair {q : QDict} (k : QKey) (v : String)
    (h : ValsNE q) : ValsNE (addPair q k v) := by
  induction q with
  | nil =>
    intro kv hkv
    simp only [addPair, List.mem_singleton] at hkv
    subst hkv
    simp
  | cons kv0 rest ih =>
    intro kv hkv
    by_cases hk : kv0.1 = k
    · simp only [addPair, if_pos hk, List.mem_cons] at hkv
      rcases hkv with rfl | hkv
      · simp
      · exact h kv (List.mem_cons_of_mem kv0 hkv)
    · simp only [addPair, if_neg hk, List.mem_cons] at hkv
      rcases hkv with rfl | hkv
      · exact h kv (List.mem_cons_self kv rest)
      · exact ih (fun kv2 h2 => h kv2 (List.mem_cons_of_mem kv0 h2)) kv hkv

theorem parse_qs_invariants_aux (pairs : List (QKey × String)) :
    ∀ acc : QDict, NodupKeys acc → ValsNE acc →
      NodupKeys (pairs.foldl (fun q kv => addPair q kv.1 kv.2) acc)
      ∧ ValsNE (pairs.foldl (fun q kv => addPair q kv.1 kv.2) acc) := by
  induction pairs with
  | nil => intro acc h1 h2; exact ⟨h1, h2⟩
  | cons kv rest ih =>
    intro acc h1 h2
    exact ih (addPair acc kv.1 kv.2) (NodupKeys_addPair kv.1 kv.2 h1)
      (ValsNE_addPair kv.1 kv.2 h2)

theorem NodupKeys_parse_qs (pairs : List (QKey × String)) : NodupKeys (parse_qs pairs) :=
  (parse_qs_invariants_aux pairs [] (by simp [NodupKeys]) (by simp [ValsNE])).1

theorem ValsNE_parse_qs (pairs : List (QKey × String)) : ValsNE (parse_qs pairs) :=
  (parse_qs_invariants_aux pairs [] (by simp [NodupKeys]) (by simp [ValsNE])).2

theorem foldl_addPair_value_block {k : QKey} (vs : List String) :
    ∀ (pre : QDict) (vs0 : List String), lookupK pre k = none →
      List.foldl (fun q kv => addPair q kv.1 kv.2) (pre ++ [(k, vs0)])
        (vs.map (fun v => (k, v)))
      = pre ++ [(k, vs0 ++ vs)] := by
  induction vs with
  | nil => intro pre vs0 _; simp
  | cons v vs ih =>
    intro pre vs0 h
    simp only [List.map_cons, List.foldl_cons]
    rw [addPair_append_last vs0 v h, ih pre (vs0 ++ [v]) h]
    simp

theorem foldl_addPair_fresh_block {k : QKey} {vs : List String} (hvs : vs ≠ [])
    (acc : QDict) (h : lookupK acc k = none) :
    List.foldl (fun q kv => addPair q kv.1 kv.2) acc (vs.map (fun v => (k, v)))
      = acc ++ [(k, vs)] := by
  cases vs with
  | nil => exact absurd rfl hvs
  | cons v vs =>
    simp only [List.map_cons, List.foldl_cons]
    rw [addPair_of_lookup_none v h, foldl_addPair_value_block vs acc [v] h]
    simp

theorem parse_qs_urlencode_aux (q : QDict) :
    ∀ acc : QDict, NodupKeys q → ValsNE q →
      (∀ kv ∈ q, lookupK acc kv.1 = none) →
      List.foldl (fun d kv => addPair d kv.1 kv.2) acc (urlencode q) = acc ++ q := by
  induction q with
  | nil => intro acc _ _ _; simp [urlencode]
  | cons kv rest ih =>
    intro acc hnd hne hfresh
    obtain ⟨k, vs⟩ := kv
    have hvs : vs ≠ [] := hne (k, vs) (List.mem_cons_self _ _)
    have hacc : lookupK acc k = none := hfresh (k, vs) (List.mem_cons_self _ _)
    have hurl : urlencode ((k, vs) :: rest) = vs.map (fun v => (k, v)) ++ urlencode rest := by
      simp [urlencode]
    rw [hurl, List.foldl_append, foldl_addPair_fresh_block hvs acc hacc]
    have hkeys : k ∉ rest.map Prod.fst := by
      have := hnd
      unfold NodupKeys at this
      simp only [List.map_cons, List.nodup_cons] at this
      exact this.1
    rw [ih (acc ++ [(k, vs)])
      (by unfold NodupKeys at hnd ⊢; simpa [List.nodup_cons] using hnd.of_cons)
      (fun kv2 h2 => hne kv2 (List.mem_cons_of_mem _ h2))
      (fun kv2 h2 => by
        rw [lookupK_append_of_none _ (hfresh kv2 (List.mem_cons_of_mem _ h2))]
        have hne2 : ¬ k = kv2.1 := fun he => hkeys (he ▸ List.mem_map_of_mem Prod.fst h2)
        simp [lookupK, hne2])]
    simp

theorem parse_qs_urlencode {q : QDict} (hnd : NodupKeys q) (hne : ValsNE q) :
    parse_qs (urlencode q) = q := by
  have := parse_qs_urlencode_aux q [] hnd hne (fun kv _ => rfl)
  simpa [parse_qs] using this

/-! The shapes the compiler steps append. -/

/-- The entries the language write loop produces, starting at index `i`. -/
def langBlockFrom (i : Nat) : List String → QDict
  | [] => []
  | c :: rest => (QKey.lang i, [c]) :: langBlockFrom (i + 1) rest

/-- The entries the platform write loop produces, starting at index `i`. -/
def platBlockFrom (i : Nat) : List String → QDict
  | [] => []
  | p :: rest => (QKey.plat i, [p]) :: platBlockFrom (i + 1) rest

/-- The entries step 6 appends for the configured date range. -/
def dateBlock (cfg : FilterConfig) : QDict :=
  (match cfg.START_DATE with
   | some s => [(QKey.startMin, [s])]
   | none => []) ++
  (match cfg.END_DATE with
   | some e => [(QKey.startMax, [e])]
   | none => [])

theorem mem_langBlockFrom (cs : List String) :
    ∀ (i : Nat), ∀ kv ∈ langBlockFrom i cs,
      ∃ j c, i ≤ j ∧ kv = (QKey.lang j, [c]) := by
  induction cs with
  | nil => intro i kv hkv; simp [langBlockFrom] at hkv
  | cons c rest ih =>
    intro i kv hkv
    simp only [langBlockFrom, List.mem_cons] at hkv
    rcases hkv with rfl | hkv
    · exact ⟨i, c, Nat.le_refl i, rfl⟩
    · obtain ⟨j, c2, hj, he⟩ := ih (i + 1) kv hkv
      exact ⟨j, c2, Nat.le_of_succ_le hj, he⟩

theorem mem_platBlockFrom (ps : List String) :
    ∀ (i : Nat), ∀ kv ∈ platBlockFrom i ps,
      ∃ j p, i ≤ j ∧ kv = (QKey.plat j, [p]) := by
  induction ps with
  | nil => intro i kv hkv; simp [platBlockFrom] at hkv
  | cons p rest ih =>
    intro i kv hkv
    simp only [platBlockFrom, List.mem_cons] at hkv
    rcases hkv with rfl | hkv
    · exact ⟨i, p, Nat.le_refl i, rfl⟩
    · obtain ⟨j, p2, hj, he⟩ := ih (i + 1) kv hkv
      exact ⟨j, p2, Nat.le_of_succ_le hj, he⟩

theorem mem_dateBlock (cfg : FilterConfig) :
    ∀ kv ∈ dateBlock cfg,
      (∃ s, kv = (QKey.startMin, [s])) ∨ (∃ e, kv = (QKey.startMax, [e])) := by
  intro kv hkv
  unfold dateBlock at hkv
  rw [List.mem_append] at hkv
  rcases hkv with hkv | hkv
  · cases hs : cfg.START_DATE with
    | none => rw [hs] at hkv; simp at hkv
    | some s =>
      rw [hs] at hkv
      rw [List.mem_singleton] at hkv
      exact Or.inl ⟨s, hkv⟩
  · cases he : cfg.END_DATE with
    | none => rw [he] at hkv; simp at hkv
    | some e =>
      rw [he] at hkv
      rw [List.mem_singleton] at hkv
      exact Or.inr ⟨e, hkv⟩

theorem lookupK_langBlockFrom_ne {k : QKey} (h : ∀ j, k ≠ QKey.lang j)
    (cs : List String) : ∀ i, lookupK (langBlockFrom i cs) k = none := by
  induction cs with
  | nil => intro i; rfl
  | cons c rest ih =>
    intro i
    have hne : ¬ QKey.lang i = k := fun he => h i he.symm
    simp [langBlockFrom, lookupK, hne, ih]

theorem lookupK_platBlockFrom_ne {k : QKey} (h : ∀ j, k ≠ QKey.plat j)
    (ps : List String) : ∀ i, lookupK (platBlockFrom i ps) k = none := by
  induction ps with
  | nil => intro i; rfl
  | cons p rest ih =>
    intro i
    have hne : ¬ QKey.plat i = k := fun he => h i he.symm
    simp [platBlockFrom, lookupK, hne, ih]

theorem lookupK_dateBlock_ne {k : QKey} (cfg : FilterConfig)
    (h1 : k ≠ QKey.startMin) (h2 : k ≠ QKey.startMax) :
    lookupK (dateBlock cfg) k = none := by
  have hn1 : ¬ QKey.startMin = k := fun he => h1 he.symm
  have hn2 : ¬ QKey.startMax = k := fun he => h2 he.symm
  unfold dateBlock
  cases cfg.START_DATE <;> cases cfg.END_DATE <;> simp [lookupK, hn1, hn2]

theorem setLangsFrom_eq_append (cs : List String) :
    ∀ (i : Nat) (q : QDict), (∀ j, i ≤ j → lookupK q (QKey.lang j) = none) →
      setLangsFrom i cs q = q ++ langBlockFrom i cs := by
  induction cs with
  | nil => intro i q _; simp [setLangsFrom, langBlockFrom]
  | cons c rest ih =>
    intro i q h
    simp only [setLangsFrom, langBlockFrom]
    rw [dictSet_of_lookup_none [c] (h i (Nat.le_refl i))]
    rw [ih (i + 1) (q ++ [(QKey.lang i, [c])]) ?_]
    · simp
    · intro j hj
      rw [lookupK_append_of_none _ (h j (Nat.le_of_succ_le hj))]
      have hne : ¬ QKey.lang i = QKey.lang j := by
        simp only [QKey.lang.injEq]
        omega
      simp [lookupK, hne]

theorem setPlatsFrom_eq_append (ps : List String) :
    ∀ (i : Nat) (q : QDict), (∀ j, i ≤ j → lookupK q (QKey.plat j) = none) →
      setPlatsFrom i ps q = q ++ platBlockFrom i ps := by
  induction ps with
  | nil => intro i q _; simp [setPlatsFrom, platBlockFrom]
  | cons p rest ih =>
    intro i q h
    simp only [setPlatsFrom, platBlockFrom]
    rw [dictSet_of_lookup_none [p] (h i (Nat.le_refl i))]
    rw [ih (i + 1) (q ++ [(QKey.plat i, [p])]) ?_]
    · simp
    · intro j hj
      rw [lookupK_append_of_none _ (h j (Nat.le_of_succ_le hj))]
      have hne : ¬ QKey.plat i = QKey.plat j := by
        simp only [QKey.plat.injEq]
        omega
      simp [lookupK, hne]

theorem lookupK_setLangsFrom_ne {k : QKey} (h : ∀ j, k ≠ QKey.lang j) (cs : List String) :
    ∀ (i : Nat) (q : QDict), lookupK (setLangsFrom i cs q) k = lookupK q k := by
  induction cs with
  | nil => intro i q; rfl
  | cons c rest ih =>
    intro i q
    simp only [setLangsFrom]
    rw [ih (i + 1) (dictSet q (QKey.lang i) [c]), lookupK_dictSet_ne q [c] (h i)]

theorem lookupK_setPlatsFrom_ne {k : QKey} (h : ∀ j, k ≠ QKey.plat j) (ps : List String) :
    ∀ (i : Nat) (q : QDict), lookupK (setPlatsFrom i ps q) k = lookupK q k := by
  induction ps with
  | nil => intro i q; rfl
  | cons p rest ih =>
    intro i q
    simp only [setPlatsFrom]
    rw [ih (i + 1) (dictSet q (QKey.plat i) [p]), lookupK_dictSet_ne q [p] (h i)]

theorem dictSet_append_left {a : QDict} {k : QKey} {vs : List String} (b : QDict)
    (v : List String) (h : lookupK a k = some vs) :
    dictSet (a ++ b) k v = dictSet a k v ++ b := by
  induction a with
  | nil => simp [lookupK] at h
  | cons kv rest ih =>
    by_cases hk : kv.1 = k
    · simp [dictSet, hk]
    · simp only [lookupK, if_neg hk] at h
      simp [dictSet, hk, ih h]

/-- Step 6 always rewrites the date range: wipe, then append the configured
bounds at the end. -/
theorem applyDates_eq (cfg : FilterConfig) (q : QDict) :
    applyDates cfg q = q.filter (fun kv => !isStart kv.1) ++ dateBlock cfg := by
  have hmin : lookupK (q.filter (fun kv => !isStart kv.1)) QKey.startMin = none :=
    @lookupK_filter_false (fun k => !isStart k) QKey.startMin q rfl
  have hmax : lookupK (q.filter (fun kv => !isStart kv.1)) QKey.startMax = none :=
    @lookupK_filter_false (fun k => !isStart k) QKey.startMax q rfl
  cases hs : cfg.START_DATE with
  | none =>
    cases he : cfg.END_DATE with
    | none => simp [applyDates, dateBlock, hs, he]
    | some e =>
      simp only [applyDates, dateBlock, hs, he]
      rw [dictSet_of_lookup_none [e] hmax]
      simp
  | some s =>
    cases he : cfg.END_DATE with
    | none =>
      simp only [applyDates, dateBlock, hs, he]
      rw [dictSet_of_lookup_none [s] hmin]
      simp
    | some e =>
      simp only [applyDates, dateBlock, hs, he]
      rw [dictSet_of_lookup_none [s] hmin, dictSet_of_lookup_none [e] ?_]
      · simp
      · rw [lookupK_append_of_none _ hmax]
        simp [lookupK]

/-- A successful `applyLangs` on a dict with no language keys appends
exactly the resolved code block. -/
theorem applyLangs_eq_of_ok {cfg : FilterConfig} {codes : List String}
    (hc : langCodes cfg.LANGUAGES = .ok codes) (q : QDict)
    (h : ∀ i, lookupK q (QKey.lang i) = none) :
    applyLangs cfg q = .ok (q ++ langBlockFrom 0 codes) := by
  unfold applyLangs
  by_cases hl : cfg.LANGUAGES = []
  · rw [if_pos hl]
    rw [hl] at hc
    have : codes = [] := (Except.ok.inj hc).symm
    subst this
    simp [langBlockFrom]
  · rw [if_neg hl, hc]
    show Except.ok (setLangsFrom 0 codes q) = Except.ok (q ++ langBlockFrom 0 codes)
    rw [setLangsFrom_eq_append codes 0 q (fun j _ => h j)]

/-- A valid `applyPlats` on a dict with no platform keys appends exactly
the platform block. -/
theorem applyPlats_eq_of_valid {cfg : FilterConfig}
    (hp : ∀ p ∈ cfg.PLATFORMS, p ∈ PLATFORM_SET) (q : QDict)
    (h : ∀ i, lookupK q (QKey.plat i) = none) :
    applyPlats cfg q = .ok (q ++ platBlockFrom 0 cfg.PLATFORMS) := by
  unfold applyPlats
  by_cases hl : cfg.PLATFORMS = []
  · rw [if_pos hl, hl]
    simp [platBlockFrom]
  · rw [if_neg hl, if_pos ?_]
    · rw [setPlatsFrom_eq_append cfg.PLATFORMS 0 q (fun j _ => h j)]
    · rw [List.all_eq_true]
      intro p hp2
      simpa using hp p hp2

/-- Destructure a successful compiler run into its stage results. -/
theorem applyFiltersQ_ok_elim {cfg : FilterConfig} {q0 q' : QDict}
    (h : applyFiltersQ cfg q0 = .ok q') :
    ∃ q4 q6,
      applyLangs cfg ((applyStatusCat cfg q0).filter (fun kv => !isLang kv.1)) = .ok q4
      ∧ applyPlats cfg (q4.filter (fun kv => !isPlat kv.1)) = .ok q6
      ∧ cfg.MEDIA_TYPE ∈ MEDIA_TYPE_SET
      ∧ q' = applyDates cfg (dictSet q6 (QKey.plain "media_type") [cfg.MEDIA_TYPE]) := by
  unfold applyFiltersQ at h
  split at h
  · exact absurd h (by simp)
  · rename_i q4 h4
    split at h
    · exact absurd h (by simp)
    · rename_i q6 h6
      split at h
      · rename_i hm
        exact ⟨q4, q6, h4, h6, hm, (Except.ok.inj h).symm⟩
      · exact absurd h (by simp)

theorem lookupK_append_right_none {q r : QDict} {k : QKey} (hr : lookupK r k = none) :
    lookupK (q ++ r) k = lookupK q k := by
  cases hq : lookupK q k with
  | some v => rw [lookupK_append_of_some _ hq]
  | none => rw [lookupK_append_of_none _ hq, hr]

theorem lookupK_filterLang_plain (q : QDict) (s : String) :
    lookupK (q.filter (fun kv => !isLang kv.1)) (QKey.plain s) = lookupK q (QKey.plain s) :=
  @lookupK_filter_true (fun x => !isLang x) (QKey.plain s) q rfl

theorem lookupK_filterLang_plat (q : QDict) (i : Nat) :
    lookupK (q.filter (fun kv => !isLang kv.1)) (QKey.plat i) = lookupK q (QKey.plat i) :=
  @lookupK_filter_true (fun x => !isLang x) (QKey.plat i) q rfl

theorem lookupK_filterLang_min (q : QDict) :
    lookupK (q.filter (fun kv => !isLang kv.1)) QKey.startMin = lookupK q QKey.startMin :=
  @lookupK_filter_true (fun x => !isLang x) QKey.startMin q rfl

theorem lookupK_filterLang_max (q : QDict) :
    lookupK (q.filter (fun kv => !isLang kv.1)) QKey.startMax = lookupK q QKey.startMax :=
  @lookupK_filter_true (fun x => !isLang x) QKey.startMax q rfl

theorem lookupK_filterLang_lang (q : QDict) (i : Nat) :
    lookupK (q.filter (fun kv => !isLang kv.1)) (QKey.lang i) = none :=
  @lookupK_filter_false (fun x => !isLang x) (QKey.lang i) q rfl

theorem lookupK_filterPlat_plain (q : QDict) (s : String) :
    lookupK (q.filter (fun kv => !isPlat kv.1)) (QKey.plain s) = lookupK q (QKey.plain s) :=
  @lookupK_filter_true (fun x => !isPlat x) (QKey.plain s) q rfl

theorem lookupK_filterPlat_lang (q : QDict) (i : Nat) :
    lookupK (q.filter (fun kv => !isPlat kv.1)) (QKey.lang i) = lookupK q (QKey.lang i) :=
  @lookupK_filter_true (fun x => !isPlat x) (QKey.lang i) q rfl

theorem lookupK_filterPlat_min (q : QDict) :
    lookupK (q.filter (fun kv => !isPlat kv.1)) QKey.startMin = lookupK q QKey.startMin :=
  @lookupK_filter_true (fun x => !isPlat x) QKey.startMin q rfl

theorem lookupK_filterPlat_max (q : QDict) :
    lookupK (q.filter (fun kv => !isPlat kv.1)) QKey.startMax = lookupK q QKey.startMax :=
  @lookupK_filter_true (fun x => !isPlat x) QKey.startMax q rfl

theorem lookupK_filterPlat_plat (q : QDict) (i : Nat) :
    lookupK (q.filter (fun kv => !isPlat kv.1)) (QKey.plat i) = none :=
  @lookupK_filter_false (fun x => !isPlat x) (QKey.plat i) q rfl

theorem lookupK_filterStart_plain (q : QDict) (s : String) :
    lookupK (q.filter (fun kv => !isStart kv.1)) (QKey.plain s) = lookupK q (QKey.plain s) :=
  @lookupK_filter_true (fun x => !isStart x) (QKey.plain s) q rfl

theorem lookupK_filterStart_lang (q : QDict) (i : Nat) :
    lookupK (q.filter (fun kv => !isStart kv.1)) (QKey.lang i) = lookupK q (QKey.lang i) :=
  @lookupK_filter_true (fun x => !isStart x) (QKey.lang i) q rfl

theorem lookupK_filterStart_plat (q : QDict) (i : Nat) :
    lookupK (q.filter (fun kv => !isStart kv.1)) (QKey.plat i) = lookupK q (QKey.plat i) :=
  @lookupK_filter_true (fun x => !isStart x) (QKey.plat i) q rfl

theorem lookupK_filterStart_min (q : QDict) :
    lookupK (q.filter (fun kv => !isStart kv.1)) QKey.startMin = none :=
  @lookupK_filter_false (fun x => !isStart x) QKey.startMin q rfl

theorem lookupK_filterStart_max (q : QDict) :
    lookupK (q.filter (fun kv => !isStart kv.1)) QKey.startMax = none :=
  @lookupK_filter_false (fun x => !isStart x) QKey.startMax q rfl

theorem lookupK_dateBlock_plain (cfg : FilterConfig) (s : String) :
    lookupK (dateBlock cfg) (QKey.plain s) = none :=
  lookupK_dateBlock_ne cfg (fun he => QKey.noConfusion he) (fun he => QKey.noConfusion he)

theorem lookupK_dateBlock_lang (cfg : FilterConfig) (i : Nat) :
    lookupK (dateBlock cfg) (QKey.lang i) = none :=
  lookupK_dateBlock_ne cfg (fun he => QKey.noConfusion he) (fun he => QKey.noConfusion he)

theorem lookupK_dateBlock_plat (cfg : FilterConfig) (i : Nat) :
    lookupK (dateBlock cfg) (QKey.plat i) = none :=
  lookupK_dateBlock_ne cfg (fun he => QKey.noConfusion he) (fun he => QKey.noConfusion he)

theorem lookupK_dictSet_plain_ne {s t : String} (q : QDict) (v : List String) (h : ¬ s = t) :
    lookupK (dictSet q (QKey.plain t) v) (QKey.plain s) = lookupK q (QKey.plain s) :=
  lookupK_dictSet_ne q v (fun he => h (QKey.plain.inj he))

theorem lookupK_dictSet_plain_lang (q : QDict) (t : String) (v : List String) (i : Nat) :
    lookupK (dictSet q (QKey.plain t) v) (QKey.lang i) = lookupK q (QKey.lang i) :=
  lookupK_dictSet_ne q v (fun he => QKey.noConfusion he)

theorem lookupK_dictSet_plain_plat (q : QDict) (t : String) (v : List String) (i : Nat) :
    lookupK (dictSet q (QKey.plain t) v) (QKey.plat i) = lookupK q (QKey.plat i) :=
  lookupK_dictSet_ne q v (fun he => QKey.noConfusion he)

theorem lookupK_dictSet_plain_min (q : QDict) (t : String) (v : List String) :
    lookupK (dictSet q (QKey.plain t) v) QKey.startMin = lookupK q QKey.startMin :=
  lookupK_dictSet_ne q v (fun he => QKey.noConfusion he)

theorem lookupK_dictSet_plain_max (q : QDict) (t : String) (v : List String) :
    lookupK (dictSet q (QKey.plain t) v) QKey.startMax = lookupK q QKey.startMax :=
  lookupK_dictSet_ne q v (fun he => QKey.noConfusion he)

theorem lookupK_applyStatusCat_ad (cfg : FilterConfig) (q0 : QDict) :
    lookupK (applyStatusCat cfg q0) (QKey.plain "ad_type") = some [adTypeVal cfg] := by
  unfold applyStatusCat
  exact lookupK_dictSet_self _ _ _

theorem lookupK_applyStatusCat_status (cfg : FilterConfig) (q0 : QDict)
    (h : statusValid cfg) :
    lookupK (applyStatusCat cfg q0) (QKey.plain "active_status") = some [cfg.STATUS] := by
  unfold applyStatusCat
  rw [lookupK_dictSet_ne _ _ (by decide), if_pos h]
  exact lookupK_dictSet_self _ _ _

theorem lookupK_applyStatusCat_ne (cfg : FilterConfig) (q0 : QDict) {k : QKey}
    (h1 : k ≠ QKey.plain "active_status") (h2 : k ≠ QKey.plain "ad_type") :
    lookupK (applyStatusCat cfg q0) k = lookupK q0 k := by
  unfold applyStatusCat
  rw [lookupK_dictSet_ne _ _ h2]
  by_cases hs : statusValid cfg
  · rw [if_pos hs, lookupK_dictSet_ne _ _ h1]
  · rw [if_neg hs]

theorem applyLangs_empty {cfg : FilterConfig} (h : cfg.LANGUAGES = []) (q : QDict) :
    applyLangs cfg q = .ok q := by
  unfold applyLangs
  rw [if_pos h]

theorem applyPlats_empty {cfg : FilterConfig} (h : cfg.PLATFORMS = []) (q : QDict) :
    applyPlats cfg q = .ok q := by
  unfold applyPlats
  rw [if_pos h]

theorem applyLangs_ok_lookup_ne {cfg : FilterConfig} {q q4 : QDict} {k : QKey}
    (h : applyLangs cfg q = .ok q4) (hk : ∀ j, k ≠ QKey.lang j) :
    lookupK q4 k = lookupK q k := by
  unfold applyLangs at h
  split at h
  · rw [← Except.ok.inj h]
  · split at h
    · exact absurd h (by simp)
    · rename_i codes hc
      rw [← Except.ok.inj h, lookupK_setLangsFrom_ne hk codes 0 q]

theorem applyPlats_ok_lookup_ne {cfg : FilterConfig} {q q6 : QDict} {k : QKey}
    (h : applyPlats cfg q = .ok q6) (hk : ∀ j, k ≠ QKey.plat j) :
    lookupK q6 k = lookupK q k := by
  unfold applyPlats at h
  split at h
  · rw [← Except.ok.inj h]
  · split at h
    · rw [← Except.ok.inj h, lookupK_setPlatsFrom_ne hk cfg.PLATFORMS 0 q]
    · exact absurd h (by simp)

theorem lookupK_dateBlock_startMin_none {cfg : FilterConfig}
    (h : cfg.START_DATE = none) : lookupK (dateBlock cfg) QKey.startMin = none := by
  unfold dateBlock
  rw [h]
  cases cfg.END_DATE <;> simp [lookupK]

theorem lookupK_dateBlock_startMax_none {cfg : FilterConfig}
    (h : cfg.END_DATE = none) : lookupK (dateBlock cfg) QKey.startMax = none := by
  unfold dateBlock
  rw [h]
  cases cfg.START_DATE <;> simp [lookupK]

/-- What every successful compiler run guarantees about its output dict:
the always-rewritten entries hold their resolved values, and every unset
dimension has been cleared from the target. -/
theorem applyFiltersQ_frame {cfg : FilterConfig} {q0 q' : QDict}
    (h : applyFiltersQ cfg q0 = .ok q') :
    lookupK q' (QKey.plain "ad_type") = some [adTypeVal cfg]
    ∧ lookupK q' (QKey.plain "media_type") = some [cfg.MEDIA_TYPE]
    ∧ (statusValid cfg → lookupK q' (QKey.plain "active_status") = some [cfg.STATUS])
    ∧ (cfg.LANGUAGES = [] → ∀ i, lookupK q' (QKey.lang i) = none)
    ∧ (cfg.PLATFORMS = [] → ∀ i, lookupK q' (QKey.plat i) = none)
    ∧ (cfg.START_DATE = none → lookupK q' QKey.startMin = none)
    ∧ (cfg.END_DATE = none → lookupK q' QKey.startMax = none) := by
  obtain ⟨q4, q6, h4, h6, hm, hq⟩ := applyFiltersQ_ok_elim h
  subst hq
  rw [applyDates_eq]
  refine ⟨?_, ?_, ?_, ?_, ?_, ?_, ?_⟩
  · rw [lookupK_append_right_none (lookupK_dateBlock_plain cfg _),
      lookupK_filterStart_plain,
      lookupK_dictSet_plain_ne _ _ (by decide),
      applyPlats_ok_lookup_ne h6 (fun j he => QKey.noConfusion he),
      lookupK_filterPlat_plain,
      applyLangs_ok_lookup_ne h4 (fun j he => QKey.noConfusion he),
      lookupK_filterLang_plain,
      lookupK_applyStatusCat_ad]
  · rw [lookupK_append_right_none (lookupK_dateBlock_plain cfg _),
      lookupK_filterStart_plain]
    exact lookupK_dictSet_self _ _ _
  · intro hs
    rw [lookupK_append_right_none (lookupK_dateBlock_plain cfg _),
      lookupK_filterStart_plain,
      lookupK_dictSet_plain_ne _ _ (by decide),
      applyPlats_ok_lookup_ne h6 (fun j he => QKey.noConfusion he),
      lookupK_filterPlat_plain,
      applyLangs_ok_lookup_ne h4 (fun j he => QKey.noConfusion he),
      lookupK_filterLang_plain,
      lookupK_applyStatusCat_status cfg q0 hs]
  · intro hl i
    have h43 : q4 = (applyStatusCat cfg q0).filter (fun kv => !isLang kv.1) := by
      have he := applyLangs_empty hl ((applyStatusCat cfg q0).filter (fun kv => !isLang kv.1))
      rw [he] at h4
      exact (Except.ok.inj h4).symm
    rw [lookupK_append_right_none (lookupK_dateBlock_lang cfg i),
      lookupK_filterStart_lang,
      lookupK_dictSet_plain_lang,
      applyPlats_ok_lookup_ne h6 (fun j he => QKey.noConfusion he),
      lookupK_filterPlat_lang, h43,
      lookupK_filterLang_lang]
  · intro hl i
    have h65 : q6 = q4.filter (fun kv => !isPlat kv.1) := by
      have he := applyPlats_empty hl (q4.filter (fun kv => !isPlat kv.1))
      rw [he] at h6
      exact (Except.ok.inj h6).symm
    rw [lookupK_append_right_none (lookupK_dateBlock_plat cfg i),
      lookupK_filterStart_plat,
      lookupK_dictSet_plain_plat, h65,
      lookupK_filterPlat_plat]
  · intro hs
    rw [lookupK_append_of_none _ (lookupK_filterStart_min _),
      lookupK_dateBlock_startMin_none hs]
  · intro he
    rw [lookupK_append_of_none _ (lookupK_filterStart_max _),
      lookupK_dateBlock_startMax_none he]

/-- C4 (amended).  For every base target and every run the compiler
accepts: a dimension the configuration leaves unset (empty `LANGUAGES`,
empty `PLATFORMS`, absent `START_DATE` / `END_DATE`) is cleared from the
base target — its existing encoding is removed, not left untouched — while
status (when it lies in the closed status set), media-type and category are
always rewritten with their resolved values. -/
theorem apply_filters_unset_cleared_always_rewritten {cfg : FilterConfig} {q0 q' : QDict}
    (h : applyFiltersQ cfg q0 = .ok q') :
    lookupK q' (QKey.plain "ad_type") = some [adTypeVal cfg]
    ∧ lookupK q' (QKey.plain "media_type") = some [cfg.MEDIA_TYPE]
    ∧ (statusValid cfg → lookupK q' (QKey.plain "active_status") = some [cfg.STATUS])
    ∧ (cfg.LANGUAGES = [] → ∀ i, lookupK q' (QKey.lang i) = none)
    ∧ (cfg.PLATFORMS = [] → ∀ i, lookupK q' (QKey.plat i) = none)
    ∧ (cfg.START_DATE = none → lookupK q' QKey.startMin = none)
    ∧ (cfg.END_DATE = none → lookupK q' QKey.startMax = none) :=
  applyFiltersQ_frame h

/-- Witness for C4 at the all-defaults configuration on a base target that
carried a language filter: the compiled output has lost it. -/
theorem apply_filters_unset_cleared_always_rewritten_witness :
    lookupK [(QKey.plain "active_status", ["active"]), (QKey.plain "ad_type", ["all"]),
             (QKey.plain "media_type", ["all"])] (QKey.lang 0) = none :=
  (apply_filters_unset_cleared_always_rewritten
    (show applyFiltersQ c4Cfg [(QKey.lang 0, ["fr"])]
        = .ok [(QKey.plain "active_status", ["active"]), (QKey.plain "ad_type", ["all"]),
               (QKey.plain "media_type", ["all"])] by decide)).2.2.2.1 rfl 0

theorem except_isOk_iff {ε α : Type} (e : Except ε α) : e.isOk = true ↔ ∃ b, e = .ok b := by
  cases e <;> simp [Except.isOk, Except.toBool]

theorem except_isOk_map {ε α β : Type} (f : α → β) (e : Except ε α) :
    (e.map f).isOk = e.isOk := by
  cases e <;> rfl

theorem langCodes_isOk_iff (ls : List String) :
    (langCodes ls).isOk = true ↔ ∀ l ∈ ls, lang_to_code l ≠ none := by
  induction ls with
  | nil => simp [langCodes, Except.isOk, Except.toBool]
  | cons item rest ih =>
    cases hl : lang_to_code item with
    | none =>
      simp only [langCodes, hl, Except.isOk, Except.toBool]
      simp only [Bool.false_eq_true, false_iff, not_forall]
      exact ⟨item, List.mem_cons_self item rest, by simp [hl]⟩
    | some c =>
      cases hr : langCodes rest with
      | error e =>
        rw [hr] at ih
        simp only [langCodes, hl, hr, Except.map, Except.isOk, Except.toBool] at ih ⊢
        simp only [Bool.false_eq_true, false_iff, not_forall] at ih ⊢
        obtain ⟨l, hml, hcl⟩ := ih
        exact ⟨l, List.mem_cons_of_mem item hml, hcl⟩
      | ok cs =>
        rw [hr] at ih
        simp only [langCodes, hl, hr, Except.map, Except.isOk, Except.toBool] at ih ⊢
        simp only [true_iff] at ih
        simp only [true_iff]
        intro l hml
        rcases List.mem_cons.mp hml with rfl | hml
        · simp [hl]
        · exact ih l hml

theorem applyLangs_isOk_iff (cfg : FilterConfig) (q : QDict) :
    (applyLangs cfg q).isOk = true ↔ ∀ l ∈ cfg.LANGUAGES, lang_to_code l ≠ none := by
  unfold applyLangs
  by_cases hl : cfg.LANGUAGES = []
  · rw [if_pos hl, hl]
    simp [Except.isOk, Except.toBool]
  · rw [if_neg hl]
    cases hc : langCodes cfg.LANGUAGES with
    | error e =>
      have := (langCodes_isOk_iff cfg.LANGUAGES)
      rw [hc] at this
      simpa [Except.isOk, Except.toBool] using this
    | ok codes =>
      have := (langCodes_isOk_iff cfg.LANGUAGES)
      rw [hc] at this
      simpa [Except.isOk, Except.toBool] using this

theorem applyPlats_isOk_iff (cfg : FilterConfig) (q : QDict) :
    (applyPlats cfg q).isOk = true ↔ ∀ p ∈ cfg.PLATFORMS, p ∈ PLATFORM_SET := by
  unfold applyPlats
  by_cases hl : cfg.PLATFORMS = []
  · rw [if_pos hl, hl]
    simp [Except.isOk, Except.toBool]
  · rw [if_neg hl]
    by_cases ha : cfg.PLATFORMS.all (fun p => decide (p ∈ PLATFORM_SET)) = true
    · rw [if_pos ha]
      rw [List.all_eq_true] at ha
      simp only [Except.isOk, Except.toBool, true_iff]
      intro p hp
      simpa using ha p hp
    · rw [if_neg ha]
      simp only [Except.isOk, Except.toBool, Bool.false_eq_true, false_iff, not_forall]
      rw [List.all_eq_true] at ha
      push_neg at ha
      obtain ⟨p, hp, hbad⟩ := ha
      exact ⟨p, hp, by simpa using hbad⟩

/-- Extract the three validation facts from any accepted run. -/
theorem applyFiltersQ_ok_validations {cfg : FilterConfig} {q0 q' : QDict}
    (h : applyFiltersQ cfg q0 = .ok q') :
    (∀ l ∈ cfg.LANGUAGES, lang_to_code l ≠ none)
    ∧ (∀ p ∈ cfg.PLATFORMS, p ∈ PLATFORM_SET)
    ∧ cfg.MEDIA_TYPE ∈ MEDIA_TYPE_SET := by
  obtain ⟨q4, q6, h4, h6, hm, _⟩ := applyFiltersQ_ok_elim h
  refine ⟨?_, ?_, hm⟩
  · exact (applyLangs_isOk_iff cfg _).mp (by rw [h4]; rfl)
  · exact (applyPlats_isOk_iff cfg _).mp (by rw [h6]; rfl)

/-- A configuration passing all three validations compiles every target. -/
theorem applyFiltersQ_ok_of_valid {cfg : FilterConfig} (q0 : QDict)
    (hl : ∀ l ∈ cfg.LANGUAGES, lang_to_code l ≠ none)
    (hp : ∀ p ∈ cfg.PLATFORMS, p ∈ PLATFORM_SET)
    (hm : cfg.MEDIA_TYPE ∈ MEDIA_TYPE_SET) :
    ∃ q', applyFiltersQ cfg q0 = .ok q' := by
  have h4x := (applyLangs_isOk_iff cfg
    ((applyStatusCat cfg q0).filter (fun kv => !isLang kv.1))).mpr hl
  obtain ⟨q4, h4⟩ := (except_isOk_iff _).mp h4x
  have h6x := (applyPlats_isOk_iff cfg (q4.filter (fun kv => !isPlat kv.1))).mpr hp
  obtain ⟨q6, h6⟩ := (except_isOk_iff _).mp h6x
  refine ⟨applyDates cfg (dictSet q6 (QKey.plain "media_type") [cfg.MEDIA_TYPE]), ?_⟩
  unfold applyFiltersQ
  simp only [h4, h6, if_pos hm]

/-- The compiler fails exactly on an unresolvable language, an off-set
platform, or an off-set media type; the failure condition does not mention
the base target at all (in particular the dates are never compared). -/
theorem applyFiltersQ_error_iff (cfg : FilterConfig) (q0 : QDict) :
    (applyFiltersQ cfg q0).isOk = false ↔
      (∃ l ∈ cfg.LANGUAGES, lang_to_code l = none)
      ∨ (∃ p ∈ cfg.PLATFORMS, p ∉ PLATFORM_SET)
      ∨ cfg.MEDIA_TYPE ∉ MEDIA_TYPE_SET := by
  constructor
  · intro hfail
    by_contra hcon
    push_neg at hcon
    obtain ⟨hl, hp, hm⟩ := hcon
    obtain ⟨q', hok⟩ := applyFiltersQ_ok_of_valid q0
      (fun l hml hc => hl l hml hc) (fun p hmp => hp p hmp) hm
    rw [hok] at hfail
    simp [Except.isOk, Except.toBool] at hfail
  · intro hbad
    cases hqq : applyFiltersQ cfg q0 with
    | error e => rfl
    | ok q' =>
      obtain ⟨hl, hp, hm⟩ := applyFiltersQ_ok_validations hqq
      rcases hbad with ⟨l, hml, hcl⟩ | ⟨p, hmp, hbp⟩ | hbm
      · exact absurd hcl (hl l hml)
      · exact absurd (hp p hmp) hbp
      · exact absurd hm hbm

/-- C5 (amended).  `_apply_filters_to_url` fails exactly when a supplied
language name has no known code, a platform value lies outside the closed
platform set, or the media-type value lies outside the closed media-type
set; a reversed date range (end before start) is not validated at all.  The
function is pure: on an error no URL is produced and the base target string
is untouched. -/
theorem apply_filters_validation_exact (cfg : FilterConfig) (u : UrlQ) :
    (_apply_filters_to_url cfg u).isOk = false ↔
      (∃ l ∈ cfg.LANGUAGES, lang_to_code l = none)
      ∨ (∃ p ∈ cfg.PLATFORMS, p ∉ PLATFORM_SET)
      ∨ cfg.MEDIA_TYPE ∉ MEDIA_TYPE_SET := by
  unfold _apply_filters_to_url
  rw [except_isOk_map]
  exact applyFiltersQ_error_iff cfg (parse_qs u.query)

theorem lookupK_ne_none_of_mem {q : QDict} {kv : QKey × List String} (h : kv ∈ q) :
    lookupK q kv.1 ≠ none := by
  intro hn
  exact (lookupK_eq_none_iff q kv.1).mp hn (List.mem_map_of_mem Prod.fst h)

theorem NodupKeys_append {a b : QDict} (ha : NodupKeys a) (hb : NodupKeys b)
    (hd : ∀ k ∈ a.map Prod.fst, k ∉ b.map Prod.fst) : NodupKeys (a ++ b) := by
  unfold NodupKeys
  rw [List.map_append, List.nodup_append]
  exact ⟨ha, hb, hd⟩

theorem ValsNE_append {a b : QDict} (ha : ValsNE a) (hb : ValsNE b) : ValsNE (a ++ b) := by
  intro kv hkv
  rcases List.mem_append.mp hkv with h | h
  · exact ha kv h
  · exact hb kv h

theorem mem_keys_filter {p : QKey → Bool} {q : QDict} {k : QKey}
    (h : k ∈ (q.filter (fun kv => p kv.1)).map Prod.fst) : p k = true := by
  obtain ⟨kv, hkv, rfl⟩ := List.mem_map.mp h
  exact of_decide_eq_true (by
    have := List.mem_filter.mp hkv
    simpa using this.2)

theorem mem_keys_langBlockFrom {cs : List String} {k : QKey} :
    ∀ {i : Nat}, k ∈ (langBlockFrom i cs).map Prod.fst → ∃ j, i ≤ j ∧ k = QKey.lang j := by
  intro i h
  obtain ⟨kv, hkv, rfl⟩ := List.mem_map.mp h
  obtain ⟨j, c, hj, rfl⟩ := mem_langBlockFrom cs i kv hkv
  exact ⟨j, hj, rfl⟩

theorem mem_keys_platBlockFrom {ps : List String} {k : QKey} :
    ∀ {i : Nat}, k ∈ (platBlockFrom i ps).map Prod.fst → ∃ j, i ≤ j ∧ k = QKey.plat j := by
  intro i h
  obtain ⟨kv, hkv, rfl⟩ := List.mem_map.mp h
  obtain ⟨j, p, hj, rfl⟩ := mem_platBlockFrom ps i kv hkv
  exact ⟨j, hj, rfl⟩

theorem NodupKeys_langBlockFrom (cs : List String) : ∀ i, NodupKeys (langBlockFrom i cs) := by
  induction cs with
  | nil => intro i; simp [langBlockFrom, NodupKeys]
  | cons c rest ih =>
    intro i
    unfold NodupKeys
    simp only [langBlockFrom, List.map_cons, List.nodup_cons]
    refine ⟨?_, ih (i + 1)⟩
    intro hmem
    obtain ⟨j, hj, he⟩ := mem_keys_langBlockFrom hmem
    have : i = j := QKey.lang.inj he
    omega

theorem NodupKeys_platBlockFrom (ps : List String) : ∀ i, NodupKeys (platBlockFrom i ps) := by
  induction ps with
  | nil => intro i; simp [platBlockFrom, NodupKeys]
  | cons p rest ih =>
    intro i
    unfold NodupKeys
    simp only [platBlockFrom, List.map_cons, List.nodup_cons]
    refine ⟨?_, ih (i + 1)⟩
    intro hmem
    obtain ⟨j, hj, he⟩ := mem_keys_platBlockFrom hmem
    have : i = j := QKey.plat.inj he
    omega

theorem ValsNE_langBlockFrom (cs : List String) : ∀ i, ValsNE (langBlockFrom i cs) := by
  induction cs with
  | nil => intro i kv hkv; simp [langBlockFrom] at hkv
  | cons c rest ih =>
    intro i kv hkv
    simp only [langBlockFrom, List.mem_cons] at hkv
    rcases hkv with rfl | hkv
    · simp
    · exact ih (i + 1) kv hkv

theorem ValsNE_platBlockFrom (ps : List String) : ∀ i, ValsNE (platBlockFrom i ps) := by
  induction ps with
  | nil => intro i kv hkv; simp [platBlockFrom] at hkv
  | cons p rest ih =>
    intro i kv hkv
    simp only [platBlockFrom, List.mem_cons] at hkv
    rcases hkv with rfl | hkv
    · simp
    · exact ih (i + 1) kv hkv

theorem NodupKeys_dateBlock (cfg : FilterConfig) : NodupKeys (dateBlock cfg) := by
  unfold dateBlock NodupKeys
  cases cfg.START_DATE <;> cases cfg.END_DATE <;> simp

theorem ValsNE_dateBlock (cfg : FilterConfig) : ValsNE (dateBlock cfg) := by
  intro kv hkv
  rcases mem_dateBlock cfg kv hkv with ⟨s, rfl⟩ | ⟨e, rfl⟩ <;> simp

theorem NodupKeys_applyStatusCat (cfg : FilterConfig) {q : QDict} (h : NodupKeys q) :
    NodupKeys (applyStatusCat cfg q) := by
  unfold applyStatusCat
  by_cases hs : statusValid cfg
  · rw [if_pos hs]
    exact NodupKeys_dictSet _ _ (NodupKeys_dictSet _ _ h)
  · rw [if_neg hs]
    exact NodupKeys_dictSet _ _ h

theorem ValsNE_applyStatusCat (cfg : FilterConfig) {q : QDict} (h : ValsNE q) :
    ValsNE (applyStatusCat cfg q) := by
  unfold applyStatusCat
  by_cases hs : statusValid cfg
  · rw [if_pos hs]
    exact ValsNE_dictSet _ (by simp) (ValsNE_dictSet _ (by simp) h)
  · rw [if_neg hs]
    exact ValsNE_dictSet _ (by simp) h

theorem applyLangs_preserves_inv {cfg : FilterConfig} {q q4 : QDict}
    (h : applyLangs cfg (q.filter (fun kv => !isLang kv.1)) = .ok q4)
    (hnd : NodupKeys q) (hne : ValsNE q) : NodupKeys q4 ∧ ValsNE q4 := by
  have hnd3 : NodupKeys (q.filter (fun kv => !isLang kv.1)) := NodupKeys_filter _ hnd
  have hne3 : ValsNE (q.filter (fun kv => !isLang kv.1)) := ValsNE_filter _ hne
  unfold applyLangs at h
  split at h
  · rw [← Except.ok.inj h]
    exact ⟨hnd3, hne3⟩
  · split at h
    · exact absurd h (by simp)
    · rename_i codes hc
      rw [← Except.ok.inj h]
      rw [setLangsFrom_eq_append codes 0 _ (fun j _ => lookupK_filterLang_lang q j)]
      constructor
      · refine NodupKeys_append hnd3 (NodupKeys_langBlockFrom codes 0) ?_
        intro k hk hk2
        obtain ⟨j, _, rfl⟩ := mem_keys_langBlockFrom hk2
        have := @mem_keys_filter (fun x => !isLang x) q (QKey.lang j) hk
        simp [isLang] at this
      · exact ValsNE_append hne3 (ValsNE_langBlockFrom codes 0)

theorem applyPlats_preserves_inv {cfg : FilterConfig} {q q6 : QDict}
    (h : applyPlats cfg (q.filter (fun kv => !isPlat kv.1)) = .ok q6)
    (hnd : NodupKeys q) (hne : ValsNE q) : NodupKeys q6 ∧ ValsNE q6 := by
  have hnd5 : NodupKeys (q.filter (fun kv => !isPlat kv.1)) := NodupKeys_filter _ hnd
  have hne5 : ValsNE (q.filter (fun kv => !isPlat kv.1)) := ValsNE_filter _ hne
  unfold applyPlats at h
  split at h
  · rw [← Except.ok.inj h]
    exact ⟨hnd5, hne5⟩
  · split at h
    · rw [← Except.ok.inj h]
      rw [setPlatsFrom_eq_append cfg.PLATFORMS 0 _ (fun j _ => lookupK_filterPlat_plat q j)]
      constructor
      · refine NodupKeys_append hnd5 (NodupKeys_platBlockFrom cfg.PLATFORMS 0) ?_
        intro k hk hk2
        obtain ⟨j, _, rfl⟩ := mem_keys_platBlockFrom hk2
        have := @mem_keys_filter (fun x => !isPlat x) q (QKey.plat j) hk
        simp [isPlat] at this
      · exact ValsNE_append hne5 (ValsNE_platBlockFrom cfg.PLATFORMS 0)
    · exact absurd h (by simp)

theorem applyFiltersQ_preserves_inv {cfg : FilterConfig} {q0 q' : QDict}
    (h : applyFiltersQ cfg q0 = .ok q') (hnd : NodupKeys q0) (hne : ValsNE q0) :
    NodupKeys q' ∧ ValsNE q' := by
  obtain ⟨q4, q6, h4, h6, hm, hq⟩ := applyFiltersQ_ok_elim h
  subst hq
  obtain ⟨hnd4, hne4⟩ := applyLangs_preserves_inv h4
    (NodupKeys_applyStatusCat cfg hnd) (ValsNE_applyStatusCat cfg hne)
  obtain ⟨hnd6, hne6⟩ := applyPlats_preserves_inv h6 hnd4 hne4
  have hnd7 : NodupKeys (dictSet q6 (QKey.plain "media_type") [cfg.MEDIA_TYPE]) :=
    NodupKeys_dictSet _ _ hnd6
  have hne7 : ValsNE (dictSet q6 (QKey.plain "media_type") [cfg.MEDIA_TYPE]) :=
    ValsNE_dictSet _ (by simp) hne6
  rw [applyDates_eq]
  constructor
  · refine NodupKeys_append (NodupKeys_filter _ hnd7) (NodupKeys_dateBlock cfg) ?_
    intro k hk hk2
    obtain ⟨kv, hkv, rfl⟩ := List.mem_map.mp hk2
    have hks := mem_dateBlock cfg kv hkv
    have hkf := @mem_keys_filter (fun x => !isStart x)
      (dictSet q6 (QKey.plain "media_type") [cfg.MEDIA_TYPE]) kv.1 hk
    rcases hks with ⟨s, rfl⟩ | ⟨e, rfl⟩ <;> simp [isStart] at hkf
  · exact ValsNE_append (ValsNE_filter _ hne7) (ValsNE_dateBlock cfg)

theorem filterLang_core {c : QDict} (h : ∀ i, lookupK c (QKey.lang i) = none) :
    c.filter (fun kv => !isLang kv.1) = c := by
  rw [List.filter_eq_self]
  intro kv hkv
  cases hk : kv.1 with
  | lang i =>
    exfalso
    have hne := lookupK_ne_none_of_mem hkv
    rw [hk] at hne
    exact hne (h i)
  | plain s => simp [hk, isLang]
  | plat i => simp [hk, isLang]
  | startMin => simp [hk, isLang]
  | startMax => simp [hk, isLang]

theorem filterPlat_core {c : QDict} (h : ∀ i, lookupK c (QKey.plat i) = none) :
    c.filter (fun kv => !isPlat kv.1) = c := by
  rw [List.filter_eq_self]
  intro kv hkv
  cases hk : kv.1 with
  | plat i =>
    exfalso
    have hne := lookupK_ne_none_of_mem hkv
    rw [hk] at hne
    exact hne (h i)
  | plain s => simp [hk, isPlat]
  | lang i => simp [hk, isPlat]
  | startMin => simp [hk, isPlat]
  | startMax => simp [hk, isPlat]

theorem filterStart_core {c : QDict} (h1 : lookupK c QKey.startMin = none)
    (h2 : lookupK c QKey.startMax = none) :
    c.filter (fun kv => !isStart kv.1) = c := by
  rw [List.filter_eq_self]
  intro kv hkv
  cases hk : kv.1 with
  | startMin =>
    exfalso
    have hne := lookupK_ne_none_of_mem hkv
    rw [hk] at hne
    exact hne h1
  | startMax =>
    exfalso
    have hne := lookupK_ne_none_of_mem hkv
    rw [hk] at hne
    exact hne h2
  | plain s => simp [hk, isStart]
  | lang i => simp [hk, isStart]
  | plat i => simp [hk, isStart]

theorem filterLang_langBlock (cs : List String) (i : Nat) :
    (langBlockFrom i cs).filter (fun kv => !isLang kv.1) = [] := by
  rw [List.filter_eq_nil_iff]
  intro kv hkv
  obtain ⟨j, c, _, rfl⟩ := mem_langBlockFrom cs i kv hkv
  simp [isLang]

theorem filterPlat_langBlock (cs : List String) (i : Nat) :
    (langBlockFrom i cs).filter (fun kv => !isPlat kv.1) = langBlockFrom i cs := by
  rw [List.filter_eq_self]
  intro kv hkv
  obtain ⟨j, c, _, rfl⟩ := mem_langBlockFrom cs i kv hkv
  simp [isPlat]

theorem filterStart_langBlock (cs : List String) (i : Nat) :
    (langBlockFrom i cs).filter (fun kv => !isStart kv.1) = langBlockFrom i cs := by
  rw [List.filter_eq_self]
  intro kv hkv
  obtain ⟨j, c, _, rfl⟩ := mem_langBlockFrom cs i kv hkv
  simp [isStart]

theorem filterPlat_platBlock (ps : List String) (i : Nat) :
    (platBlockFrom i ps).filter (fun kv => !isPlat kv.1) = [] := by
  rw [List.filter_eq_nil_iff]
  intro kv hkv
  obtain ⟨j, p, _, rfl⟩ := mem_platBlockFrom ps i kv hkv
  simp [isPlat]

theorem filterLang_platBlock (ps : List String) (i : Nat) :
    (platBlockFrom i ps).filter (fun kv => !isLang kv.1) = platBlockFrom i ps := by
  rw [List.filter_eq_self]
  intro kv hkv
  obtain ⟨j, p, _, rfl⟩ := mem_platBlockFrom ps i kv hkv
  simp [isLang]

theorem filterStart_platBlock (ps : List String) (i : Nat) :
    (platBlockFrom i ps).filter (fun kv => !isStart kv.1) = platBlockFrom i ps := by
  rw [List.filter_eq_self]
  intro kv hkv
  obtain ⟨j, p, _, rfl⟩ := mem_platBlockFrom ps i kv hkv
  simp [isStart]

theorem filterStart_dateBlock (cfg : FilterConfig) :
    (dateBlock cfg).filter (fun kv => !isStart kv.1) = [] := by
  rw [List.filter_eq_nil_iff]
  intro kv hkv
  rcases mem_dateBlock cfg kv hkv with ⟨s, rfl⟩ | ⟨e, rfl⟩ <;> simp [isStart]

theorem filterLang_dateBlock (cfg : FilterConfig) :
    (dateBlock cfg).filter (fun kv => !isLang kv.1) = dateBlock cfg := by
  rw [List.filter_eq_self]
  intro kv hkv
  rcases mem_dateBlock cfg kv hkv with ⟨s, rfl⟩ | ⟨e, rfl⟩ <;> simp [isLang]

theorem filterPlat_dateBlock (cfg : FilterConfig) :
    (dateBlock cfg).filter (fun kv => !isPlat kv.1) = dateBlock cfg := by
  rw [List.filter_eq_self]
  intro kv hkv
  rcases mem_dateBlock cfg kv hkv with ⟨s, rfl⟩ | ⟨e, rfl⟩ <;> simp [isPlat]

/-- The canonical shape of every re-compiled dict: a core holding the
always-rewritten keys and no language / platform / date keys, followed by
the language, platform and date blocks in that order. -/
def CompiledShape (cfg : FilterConfig) (codes : List String) (q : QDict) : Prop :=
  ∃ c : QDict,
    q = c ++ langBlockFrom 0 codes ++ platBlockFrom 0 cfg.PLATFORMS ++ dateBlock cfg
    ∧ (∀ i, lookupK c (QKey.lang i) = none)
    ∧ (∀ i, lookupK c (QKey.plat i) = none)
    ∧ lookupK c QKey.startMin = none
    ∧ lookupK c QKey.startMax = none
    ∧ lookupK c (QKey.plain "ad_type") = some [adTypeVal cfg]
    ∧ lookupK c (QKey.plain "media_type") = some [cfg.MEDIA_TYPE]
    ∧ (statusValid cfg → lookupK c (QKey.plain "active_status") = some [cfg.STATUS])

/-- Compiling a target that already carries a `media_type` parameter yields
a dict of the canonical shape. -/
theorem applyFiltersQ_shape {cfg : FilterConfig} {q1 q2 : QDict} {codes vs : List String}
    (hc : langCodes cfg.LANGUAGES = .ok codes)
    (hmed : lookupK q1 (QKey.plain "media_type") = some vs)
    (h : applyFiltersQ cfg q1 = .ok q2) :
    CompiledShape cfg codes q2 := by
  obtain ⟨q4, q6, h4, h6, hm, hq⟩ := applyFiltersQ_ok_elim h
  obtain ⟨_, hp, _⟩ := applyFiltersQ_ok_validations h
  have hq4 : q4 = (applyStatusCat cfg q1).filter (fun kv => !isLang kv.1)
      ++ langBlockFrom 0 codes := by
    have he := applyLangs_eq_of_ok hc ((applyStatusCat cfg q1).filter (fun kv => !isLang kv.1))
      (fun i => lookupK_filterLang_lang _ i)
    rw [he] at h4
    exact (Except.ok.inj h4).symm
  have hq6 : q6 = q4.filter (fun kv => !isPlat kv.1) ++ platBlockFrom 0 cfg.PLATFORMS := by
    have he := applyPlats_eq_of_valid hp (q4.filter (fun kv => !isPlat kv.1))
      (fun i => lookupK_filterPlat_plat _ i)
    rw [he] at h6
    exact (Except.ok.inj h6).symm
  have hq5 : q4.filter (fun kv => !isPlat kv.1)
      = ((applyStatusCat cfg q1).filter (fun kv => !isLang kv.1)).filter (fun kv => !isPlat kv.1)
        ++ langBlockFrom 0 codes := by
    rw [hq4, List.filter_append, filterPlat_langBlock]
  have hmed5 : lookupK (((applyStatusCat cfg q1).filter
        (fun kv => !isLang kv.1)).filter (fun kv => !isPlat kv.1))
      (QKey.plain "media_type") = some vs := by
    rw [lookupK_filterPlat_plain, lookupK_filterLang_plain,
      lookupK_applyStatusCat_ne cfg q1 (by decide) (by decide), hmed]
  have hq6' : q6 = ((applyStatusCat cfg q1).filter
        (fun kv => !isLang kv.1)).filter (fun kv => !isPlat kv.1)
      ++ (langBlockFrom 0 codes ++ platBlockFrom 0 cfg.PLATFORMS) := by
    rw [hq6, hq5, List.append_assoc]
  have hq7 : dictSet q6 (QKey.plain "media_type") [cfg.MEDIA_TYPE]
      = dictSet (((applyStatusCat cfg q1).filter
          (fun kv => !isLang kv.1)).filter (fun kv => !isPlat kv.1))
          (QKey.plain "media_type") [cfg.MEDIA_TYPE]
        ++ (langBlockFrom 0 codes ++ platBlockFrom 0 cfg.PLATFORMS) := by
    rw [hq6', dictSet_append_left _ _ hmed5]
  refine ⟨(dictSet (((applyStatusCat cfg q1).filter
      (fun kv => !isLang kv.1)).filter (fun kv => !isPlat kv.1))
      (QKey.plain "media_type") [cfg.MEDIA_TYPE]).filter (fun kv => !isStart kv.1),
    ?_, ?_, ?_, ?_, ?_, ?_, ?_, ?_⟩
  · rw [hq, applyDates_eq, hq7, List.filter_append, List.filter_append,
      filterStart_langBlock, filterStart_platBlock]
    simp [List.append_assoc]
  · intro i
    rw [lookupK_filterStart_lang, lookupK_dictSet_plain_lang,
      lookupK_filterPlat_lang, lookupK_filterLang_lang]
  · intro i
    rw [lookupK_filterStart_plat, lookupK_dictSet_plain_plat,
      lookupK_filterPlat_plat]
  · rw [lookupK_filterStart_min]
  · rw [lookupK_filterStart_max]
  · rw [lookupK_filterStart_plain, lookupK_dictSet_plain_ne _ _ (by decide),
      lookupK_filterPlat_plain, lookupK_filterLang_plain, lookupK_applyStatusCat_ad]
  · rw [lookupK_filterStart_plain]
    exact lookupK_dictSet_self _ _ _
  · intro hs
    rw [lookupK_filterStart_plain, lookupK_dictSet_plain_ne _ _ (by decide),
      lookupK_filterPlat_plain, lookupK_filterLang_plain,
      lookupK_applyStatusCat_status cfg q1 hs]

/-- A dict of the canonical shape is a fixed point of the compiler: every
in-place write finds its resolved value already present, every wipe removes
exactly a trailing block, and every append re-creates the removed block in
the same position. -/
theorem applyFiltersQ_fixed {cfg : FilterConfig} {codes : List String} {c : QDict}
    (hc : langCodes cfg.LANGUAGES = .ok codes)
    (hp : ∀ p ∈ cfg.PLATFORMS, p ∈ PLATFORM_SET)
    (hm : cfg.MEDIA_TYPE ∈ MEDIA_TYPE_SET)
    (hlang : ∀ i, lookupK c (QKey.lang i) = none)
    (hplat : ∀ i, lookupK c (QKey.plat i) = none)
    (hmin : lookupK c QKey.startMin = none)
    (hmax : lookupK c QKey.startMax = none)
    (had : lookupK c (QKey.plain "ad_type") = some [adTypeVal cfg])
    (hmed : lookupK c (QKey.plain "media_type") = some [cfg.MEDIA_TYPE])
    (hstat : statusValid cfg → lookupK c (QKey.plain "active_status") = some [cfg.STATUS]) :
    applyFiltersQ cfg
      (c ++ langBlockFrom 0 codes ++ platBlockFrom 0 cfg.PLATFORMS ++ dateBlock cfg)
      = .ok (c ++ langBlockFrom 0 codes ++ platBlockFrom 0 cfg.PLATFORMS ++ dateBlock cfg) := by
  have hstep1 : applyStatusCat cfg
      (c ++ langBlockFrom 0 codes ++ platBlockFrom 0 cfg.PLATFORMS ++ dateBlock cfg)
      = c ++ langBlockFrom 0 codes ++ platBlockFrom 0 cfg.PLATFORMS ++ dateBlock cfg := by
    unfold applyStatusCat
    have hlookAd : lookupK
        (c ++ langBlockFrom 0 codes ++ platBlockFrom 0 cfg.PLATFORMS ++ dateBlock cfg)
        (QKey.plain "ad_type") = some [adTypeVal cfg] :=
      lookupK_append_of_some _ (lookupK_append_of_some _ (lookupK_append_of_some _ had))
    by_cases hs : statusValid cfg
    · have hlookSt : lookupK
          (c ++ langBlockFrom 0 codes ++ platBlockFrom 0 cfg.PLATFORMS ++ dateBlock cfg)
          (QKey.plain "active_status") = some [cfg.STATUS] :=
        lookupK_append_of_some _ (lookupK_append_of_some _ (lookupK_append_of_some _ (hstat hs)))
      rw [if_pos hs, dictSet_of_lookup_some hlookSt, dictSet_of_lookup_some hlookAd]
    · rw [if_neg hs, dictSet_of_lookup_some hlookAd]
  have hq3 : (c ++ langBlockFrom 0 codes ++ platBlockFrom 0 cfg.PLATFORMS
        ++ dateBlock cfg).filter (fun kv => !isLang kv.1)
      = c ++ platBlockFrom 0 cfg.PLATFORMS ++ dateBlock cfg := by
    rw [List.filter_append, List.filter_append, List.filter_append,
      filterLang_core hlang, filterLang_langBlock, filterLang_platBlock, filterLang_dateBlock]
    simp
  have h4 := applyLangs_eq_of_ok hc
    (c ++ platBlockFrom 0 cfg.PLATFORMS ++ dateBlock cfg)
    (fun i => by
      rw [lookupK_append_right_none (lookupK_dateBlock_lang cfg i),
        lookupK_append_right_none
          (lookupK_platBlockFrom_ne (fun j he => QKey.noConfusion he) cfg.PLATFORMS 0)]
      exact hlang i)
  have hq5 : (c ++ platBlockFrom 0 cfg.PLATFORMS ++ dateBlock cfg
        ++ langBlockFrom 0 codes).filter (fun kv => !isPlat kv.1)
      = c ++ dateBlock cfg ++ langBlockFrom 0 codes := by
    rw [List.filter_append, List.filter_append, List.filter_append,
      filterPlat_core hplat, filterPlat_platBlock, filterPlat_dateBlock, filterPlat_langBlock]
    simp
  have h6 := applyPlats_eq_of_valid hp
    (c ++ dateBlock cfg ++ langBlockFrom 0 codes)
    (fun i => by
      rw [lookupK_append_right_none
          (lookupK_langBlockFrom_ne (fun j he => QKey.noConfusion he) codes 0),
        lookupK_append_right_none
          (lookupK_dateBlock_plat cfg i)]
      exact hplat i)
  have hq7 : dictSet (c ++ dateBlock cfg ++ langBlockFrom 0 codes
        ++ platBlockFrom 0 cfg.PLATFORMS) (QKey.plain "media_type") [cfg.MEDIA_TYPE]
      = c ++ dateBlock cfg ++ langBlockFrom 0 codes ++ platBlockFrom 0 cfg.PLATFORMS := by
    rw [List.append_assoc, List.append_assoc, dictSet_append_left _ _ hmed,
      dictSet_of_lookup_some hmed, ← List.append_assoc, ← List.append_assoc]
  have hq8 : (c ++ dateBlock cfg ++ langBlockFrom 0 codes
        ++ platBlockFrom 0 cfg.PLATFORMS).filter (fun kv => !isStart kv.1)
      = c ++ langBlockFrom 0 codes ++ platBlockFrom 0 cfg.PLATFORMS := by
    rw [List.filter_append, List.filter_append, List.filter_append,
      filterStart_core hmin hmax, filterStart_dateBlock, filterStart_langBlock,
      filterStart_platBlock]
    simp
  unfold applyFiltersQ
  rw [hstep1, hq3]
  simp only [h4]
  rw [hq5]
  simp only [h6]
  rw [if_pos hm, hq7, applyDates_eq, hq8]

theorem url_ok_elim {cfg : FilterConfig} {u u' : UrlQ}
    (h : _apply_filters_to_url cfg u = .ok u') :
    ∃ q', applyFiltersQ cfg (parse_qs u.query) = .ok q' ∧ u' = ⟨u.pre, urlencode q'⟩ := by
  unfold _apply_filters_to_url at h
  cases hq : applyFiltersQ cfg (parse_qs u.query) with
  | error e =>
    rw [hq] at h
    exact absurd h (by simp [Except.map])
  | ok q' =>
    rw [hq] at h
    simp only [Except.map] at h
    exact ⟨q', rfl, (Except.ok.inj h).symm⟩

/-- C3 (amended).  The compiler is deterministic — it is a pure function of
the base target and the filter settings, so the same inputs always yield
byte-identical output — but compiling twice is not always the same as
compiling once: when the base target lacks one of the always-rewritten keys
the second pass can reorder the appended blocks.  From the second
application onward the output is a fixed point: for every base target and
accepted configuration, `compile(compile(compile(u))) = compile(compile(u))`
— re-compiling an already re-compiled target is a no-op. -/
theorem apply_filters_deterministic_stable (cfg : FilterConfig) (u u1 u2 : UrlQ)
    (h1 : _apply_filters_to_url cfg u = .ok u1)
    (h2 : _apply_filters_to_url cfg u1 = .ok u2) :
    _apply_filters_to_url cfg u2 = .ok u2 := by
  obtain ⟨q1, happ1, hu1⟩ := url_ok_elim h1
  obtain ⟨q2, happ2, hu2⟩ := url_ok_elim h2
  have hinv1 := applyFiltersQ_preserves_inv happ1 (NodupKeys_parse_qs _) (ValsNE_parse_qs _)
  have hround1 : parse_qs u1.query = q1 := by
    rw [hu1]
    exact parse_qs_urlencode hinv1.1 hinv1.2
  rw [hround1] at happ2
  have hinv2 := applyFiltersQ_preserves_inv happ2 hinv1.1 hinv1.2
  have hround2 : parse_qs u2.query = q2 := by
    rw [hu2]
    exact parse_qs_urlencode hinv2.1 hinv2.2
  obtain ⟨hl, hp, hm⟩ := applyFiltersQ_ok_validations happ1
  obtain ⟨codes, hc⟩ := (except_isOk_iff _).mp ((langCodes_isOk_iff _).mpr hl)
  have hmed1 := (applyFiltersQ_frame happ1).2.1
  obtain ⟨c, hceq, hlang, hplat, hmin, hmax, had, hmedc, hstat⟩ :=
    applyFiltersQ_shape hc hmed1 happ2
  have hfix := applyFiltersQ_fixed hc hp hm hlang hplat hmin hmax had hmedc hstat
  rw [← hceq] at hfix
  unfold _apply_filters_to_url
  rw [hround2, hfix]
  simp only [Except.map]
  rw [hu2]

/-- Witness for C3 (amended): on the concrete double-compiled target of the
counterexample, a third compilation is a no-op. -/
theorem apply_filters_deterministic_stable_witness :
    _apply_filters_to_url c3Cfg c3Url2 = .ok c3Url2 :=
  apply_filters_deterministic_stable c3Cfg c3Url0 c3Url1 c3Url2 (by decide) (by decide)

end FbScraper
